import Mathlib

/-!
Verification of ebusto/frame: the frame codec and the stop-and-wait connection
state machine.

A shallow embedding of `frame.go`.  Bytes are natural numbers below 256; the
unreliable channel's reader is a list of pending chunks, one chunk at most
being handed out per `Read` call.
-/

namespace FrameConn

/-! ## Errors, constants, the frame -/

/-- The errors `Decode` can return: the two of the package and the two that
`io.ReadFull` produces when the stream ends. -/
inductive Err where
  | ErrChecksum
  | ErrInvalidStart
  | EOF
  | ErrUnexpectedEOF
  deriving DecidableEq, Repr

/-- The marker byte `start`. -/
def start : Nat := 0xEB

/-- The wire unit: `type Frame struct { id, ack, size byte; data []byte }`. -/
structure Frame where
  id : Nat
  ack : Nat
  size : Nat
  data : List Nat
  deriving DecidableEq, Repr

/-- Every field of the frame is a byte. -/
def Frame.IsBytes (f : Frame) : Prop :=
  f.id < 256 ∧ f.ack < 256 ∧ f.size < 256 ∧ ∀ b ∈ f.data, b < 256

instance (f : Frame) : Decidable f.IsBytes := by
  unfold Frame.IsBytes; infer_instance

/-! ## `hash/crc32`: the IEEE checksum, as in `simpleMakeTable` / `simpleUpdate` -/

/-- The reversed IEEE polynomial `crc32.IEEE`. -/
def poly : Nat := 0xEDB88320

/-- One round of the inner loop of `simplePopulateTable`. -/
def crcRound (crc : Nat) : Nat :=
  if crc % 2 = 1 then (crc >>> 1) ^^^ poly else crc >>> 1

/-- Entry `i` of the IEEE table: eight rounds applied to `i`. -/
def crcTab (i : Nat) : Nat :=
  crcRound (crcRound (crcRound (crcRound (crcRound (crcRound (crcRound (crcRound i)))))))

/-- The loop body of `simpleUpdate`: `crc = tab[byte(crc)^v] ^ (crc >> 8)`. -/
def crcStep (crc v : Nat) : Nat :=
  crcTab ((crc % 256) ^^^ v) ^^^ (crc >>> 8)

/-- The function `crc32.ChecksumIEEE`: start from `^0`, fold the bytes, complement. -/
def ChecksumIEEE (p : List Nat) : Nat :=
  (p.foldl crcStep 0xFFFFFFFF) ^^^ 0xFFFFFFFF

/-! ## `encoding/binary`, big endian -/

/-- The four bytes of `binary.BigEndian.PutUint32`. -/
def putUint32 (v : Nat) : List Nat :=
  [(v / 16777216) % 256, (v / 65536) % 256, (v / 256) % 256, v % 256]

/-- The value of `binary.BigEndian.Uint32` on four bytes. -/
def getUint32 (bs : List Nat) : Nat :=
  bs.getD 0 0 * 16777216 + bs.getD 1 0 * 65536 + bs.getD 2 0 * 256 + bs.getD 3 0

/-! ## Readers -/

/-- A reader is the list of chunks still to be delivered: a single `Read`
call returns bytes of the first non-empty chunk only. -/
abbrev Reader := List (List Nat)

/-- The bytes the reader still holds. -/
def unread (r : Reader) : List Nat := r.flatten

/-- One call `r.Read(p)` with `len(p) = n`: the bytes copied to the front of
`p`, the error, and the reader afterwards.  A request for no bytes returns
nothing and no error; a request on an exhausted reader returns `io.EOF`. -/
def Reader.read : Reader → Nat → List Nat × Option Err × Reader
  | r, 0 => ([], none, r)
  | [], _ + 1 => ([], some Err.EOF, [])
  | [] :: r, n + 1 => Reader.read r (n + 1)
  | (b :: c) :: r, n + 1 =>
    if c.length ≤ n then (b :: c, none, r)
    else ((b :: c).take (n + 1), none, (b :: c).drop (n + 1) :: r)

/-- The buffer `p` after `Read` copied `got` over its front. -/
def fill (p got : List Nat) : List Nat := got ++ p.drop got.length

/-- The loop of `io.ReadAtLeast(r, buf, len(buf))`, `need` bytes still to be
read into the tail of the buffer and `acc` already read. -/
def readFullLoop : Nat → Reader → Nat → List Nat → List Nat × Option Err × Reader
  | 0, r, _, acc => (acc, none, r)
  | fuel + 1, r, need, acc =>
    if need = 0 then (acc, none, r)
    else
      match Reader.read r need with
      | (got, some e, r1) =>
        if (acc ++ got).length = 0 then (acc ++ got, some e, r1)
        else if e = Err.EOF then (acc ++ got, some Err.ErrUnexpectedEOF, r1)
        else (acc ++ got, some e, r1)
      | (got, none, r1) => readFullLoop fuel r1 (need - got.length) (acc ++ got)

/-- The call `io.ReadFull(r, buf)` with `len(buf) = n`. -/
def readFull (r : Reader) (n : Nat) : List Nat × Option Err × Reader :=
  readFullLoop (n + 1) r n []

/-! ## The codec -/

/-- The method `MarshalBinary`: header followed by the payload. -/
def MarshalBinary (f : Frame) : List Nat :=
  [start, f.id, f.ack, f.size] ++ f.data

/-- The method `Encode` on a writer that accepts every write; `w` is what
was written to the writer before. -/
def Encode (f : Frame) (w : List Nat) : Option Err × List Nat :=
  let b := MarshalBinary f
  let w1 := w ++ b
  (none, w1 ++ putUint32 (ChecksumIEEE b))

/-- The method `Decode`: the error, the receiver afterwards, the reader afterwards. -/
def Decode (f : Frame) (r : Reader) : Option Err × Frame × Reader :=
  match Reader.read r 4 with
  | (_, some e, r1) => (some e, f, r1)
  | (got, none, r1) =>
    let b := fill [0, 0, 0, 0] got
    if b.getD 0 0 ≠ start then (some Err.ErrInvalidStart, f, r1)
    else
      let f1 : Frame := { id := b.getD 1 0, ack := b.getD 2 0, size := b.getD 3 0, data := [] }
      match Reader.read r1 f1.size with
      | (got2, some e, r2) =>
        (some e, { f1 with data := fill (List.replicate f1.size 0) got2 }, r2)
      | (got2, none, r2) =>
        let f2 : Frame := { f1 with data := fill (List.replicate f1.size 0) got2 }
        match readFull r2 4 with
        | (_, some e, r3) => (some e, f2, r3)
        | (bs, none, r3) =>
          let c := getUint32 bs
          if c ≠ ChecksumIEEE (b ++ f2.data) then (some Err.ErrChecksum, f2, r3)
          else (none, f2, r3)

/-- The encoded bytes with bit `p mod 8` of byte `p / 8` flipped. -/
def flipBit (bs : List Nat) (p : Nat) : List Nat :=
  bs.set (p / 8) (bs.getD (p / 8) 0 ^^^ 2 ^ (p % 8))

/-- The reader holds `bs` and hands out as many bytes as are asked for. -/
def Full (r : Reader) (bs : List Nat) : Prop := r = [bs] ∨ (r = [] ∧ bs = [])

/-! ## The connection state machine -/

/-- The configuration `Config`; `Retry` is the tick period, in nanoseconds. -/
structure Config where
  MTU : Nat
  Retry : Nat
  deriving DecidableEq, Repr

/-- The value `defaultConfig`. -/
def defaultConfig : Config := { MTU := 200, Retry := 10000000 }

/-- The increment `n++` on a byte. -/
def byteSucc (n : Nat) : Nat := (n + 1) % 256

/-- One receive `<-sn` from the sequence goroutine whose loop variable is `n`
at the head of the loop body: the value sent, and the loop variable at the
head of the next pass.  A pass with `n == 0` sends nothing and continues. -/
def seqRecv (n : Nat) : Nat × Nat :=
  if n = 0 then (byteSucc n, byteSucc (byteSucc n)) else (n, byteSucc n)

/-- The loop variable of the sequence goroutine after `k` values were received. -/
def seqAfter : Nat → Nat
  | 0 => 1
  | k + 1 => (seqRecv (seqAfter k)).2

/-- The `k`-th value supplied by the sequence goroutine, `k` counted from 1. -/
def seqNth (k : Nat) : Nat := (seqRecv (seqAfter (k - 1))).1

/-- The variables of `Conn.state`: the inbound buffer `br`, the outbound buffer
`bw`, the last accepted frame `rx`, the pending frame `tx`, and the loop
variable `sn` of the sequence goroutine. -/
structure State where
  br : List Nat
  bw : List Nat
  rx : Option Frame
  tx : Option Frame
  sn : Nat
  deriving DecidableEq, Repr

/-- The state in which the event loop starts. -/
def State.init : State := { br := [], bw := [], rx := none, tx := none, sn := 1 }

/-- The closure `next`.  `sent` tells which branch of its `select` is taken:
the transmit pump takes the frame, or the retry tick comes first.  Returns the
state and the frames handed to the transmit pump.  The data of the frame is
the slice `fb[:n]` filled by `bw.Read(fb)`; `fb` is written nowhere else, so it
is stable while the frame is pending. -/
def next (cf : Config) (s : State) (sent : Bool) : State × List Frame :=
  if s.tx.isSome ∨ s.bw.length = 0 then (s, [])
  else
    let n := min cf.MTU s.bw.length
    let v := seqRecv s.sn
    let f : Frame := { id := v.1, ack := 0, size := n % 256, data := s.bw.take n }
    ({ s with bw := s.bw.drop n, tx := some f, sn := v.2 }, if sent then [f] else [])

/-- The events the loop of `Conn.state` selects on. -/
inductive Event where
  /-- A `Read` caller borrows `br` and reads into a buffer of `n` bytes. -/
  | read (n : Nat)
  /-- A `Write` caller borrows `bw` and writes `p`. -/
  | write (p : List Nat) (sent : Bool)
  /-- The receive pump delivers the frame `f`. -/
  | frame (f : Frame) (sent : Bool)
  /-- The retry tick; `resent` tells whether the transmit pump is ready. -/
  | retry (sent resent : Bool)
  deriving DecidableEq, Repr

/-- What one pass of the loop produces besides the new state: the frames handed
to the transmit pump, in order, and the bytes copied to the `Read` caller. -/
structure Output where
  frames : List Frame
  bytes : List Nat
  deriving DecidableEq, Repr

/-- One pass of the `for { select { ... } }` loop of `Conn.state`. -/
def step (cf : Config) (s : State) : Event → State × Output
  | Event.read n =>
    let k := min n s.br.length
    ({ s with br := s.br.drop k }, ⟨[], s.br.take k⟩)
  | Event.write p sent =>
    let r := next cf { s with bw := s.bw ++ p } sent
    (r.1, ⟨r.2, []⟩)
  | Event.frame f sent =>
    if f.id = 0 then
      match s.tx with
      | some t =>
        if t.id = f.ack then
          let r := next cf { s with tx := none } sent
          (r.1, ⟨r.2, []⟩)
        else (s, ⟨[], []⟩)
      | none => (s, ⟨[], []⟩)
    else
      let s1 : State :=
        match s.rx with
        | none => { s with rx := some f, br := s.br ++ f.data }
        | some r => if r.id ≠ f.id then { s with rx := some f, br := s.br ++ f.data } else s
      (s1, ⟨[{ id := 0, ack := f.id, size := 0, data := [] }], []⟩)
  | Event.retry sent resent =>
    let r := next cf s sent
    match r.1.tx with
    | none => (r.1, ⟨r.2, []⟩)
    | some t => (r.1, ⟨r.2 ++ (if resent then [t] else []), []⟩)

/-- The loop of `Conn.state` run over a list of events from state `s`: the
final state and everything produced on the way. -/
def run (cf : Config) : State → List Event → State × Output
  | s, [] => (s, ⟨[], []⟩)
  | s, e :: es =>
    let r := step cf s e
    let q := run cf r.1 es
    (q.1, ⟨r.2.frames ++ q.2.frames, r.2.bytes ++ q.2.bytes⟩)

/-- The peer acknowledges each pending frame in turn and nothing is
retransmitted: while a frame is pending, its acknowledgment is delivered; the
result is the list of frames handed to the transmit pump on the way. -/
def ackEach (cf : Config) : Nat → State → List Frame
  | 0, _ => []
  | fuel + 1, s =>
    match s.tx with
    | none => []
    | some f =>
      let r := step cf s (Event.frame { id := 0, ack := f.id, size := 0, data := [] } true)
      r.2.frames ++ ackEach cf fuel r.1

/-! ## Two endpoints joined by a lossy, order-preserving channel -/

/-- Endpoints `a` and `b`, the frames in flight from `a` to `b` and back, and
the history: everything passed to `Write` at `a` and returned by `Read` at `b`. -/
structure Sys where
  a : State
  b : State
  ab : List Frame
  ba : List Frame
  written : List Nat
  got : List Nat
  deriving DecidableEq, Repr

/-- Both endpoints in their initial state, nothing in flight. -/
def Sys.init : Sys :=
  { a := State.init, b := State.init, ab := [], ba := [], written := [], got := [] }

/-- The events of the two-endpoint system. -/
inductive SysEvent where
  /-- A `Write` of `p` at `a`. -/
  | writeA (p : List Nat) (sent : Bool)
  /-- A retry tick at `a`. -/
  | retryA (sent resent : Bool)
  /-- A retry tick at `b`. -/
  | retryB (sent resent : Bool)
  /-- The oldest frame in flight to `b` is delivered. -/
  | deliverAB (sent : Bool)
  /-- The oldest frame in flight to `a` is delivered. -/
  | deliverBA (sent : Bool)
  /-- The frame at position `i` in flight to `b` is lost. -/
  | dropAB (i : Nat)
  /-- The frame at position `i` in flight to `a` is lost. -/
  | dropBA (i : Nat)
  /-- A `Read` at `b` into a buffer of `n` bytes. -/
  | readB (n : Nat)
  deriving DecidableEq, Repr

/-- One event of the two-endpoint system.  A frame handed to the transmit pump
is put in flight as a value and handed to the peer's event loop as that value,
in place of `send`, `Encode`, the stream, `Decode` and `recv`: this is what the
code does for a frame whose fields are bytes and whose size is the length of
its data (`Wire`), read back by a reader that satisfies each request in full
(`Wire_survives`); the frames of a sender with `MTU ≤ 255` that is given bytes
to write are of that kind (`SysWire_run`). -/
def Sys.step(cfA cfB : Config) (y : Sys) : SysEvent → Sys
  | SysEvent.writeA p sent =>
    let r := FrameConn.step cfA y.a (Event.write p sent)
    { y with a := r.1, ab := y.ab ++ r.2.frames, written := y.written ++ p }
  | SysEvent.retryA sent resent =>
    let r := FrameConn.step cfA y.a (Event.retry sent resent)
    { y with a := r.1, ab := y.ab ++ r.2.frames }
  | SysEvent.retryB sent resent =>
    let r := FrameConn.step cfB y.b (Event.retry sent resent)
    { y with b := r.1, ba := y.ba ++ r.2.frames }
  | SysEvent.deliverAB sent =>
    match y.ab with
    | [] => y
    | f :: rest =>
      let r := FrameConn.step cfB y.b (Event.frame f sent)
      { y with b := r.1, ab := rest, ba := y.ba ++ r.2.frames }
  | SysEvent.deliverBA sent =>
    match y.ba with
    | [] => y
    | f :: rest =>
      let r := FrameConn.step cfA y.a (Event.frame f sent)
      { y with a := r.1, ba := rest, ab := y.ab ++ r.2.frames }
  | SysEvent.dropAB i => { y with ab := y.ab.eraseIdx i }
  | SysEvent.dropBA i => { y with ba := y.ba.eraseIdx i }
  | SysEvent.readB n =>
    let r := FrameConn.step cfB y.b (Event.read n)
    { y with b := r.1, got := y.got ++ r.2.bytes }

/-- The two-endpoint system run over a list of events. -/
def Sys.run (cfA cfB : Config) : Sys → List SysEvent → Sys
  | y, [] => y
  | y, e :: es => Sys.run cfA cfB (Sys.step cfA cfB y e) es

/-! ## The delivery invariant -/

/-- The last accepted frame exists and has id `i`. -/
def HasId (rx : Option Frame) (i : Nat) : Prop := ∃ r, rx = some r ∧ r.id = i

/-- The frames in flight consist of older ones, which satisfy `P`, followed by
newer ones, which satisfy `Q`. -/
def Staged (P Q : Frame → Prop) (l : List Frame) : Prop :=
  ∃ s t, l = s ++ t ∧ (∀ g ∈ s, P g) ∧ (∀ g ∈ t, Q g)

/-- The relation between the sender's variables `tx`, `bw`, `sn`, the
receiver's last accepted frame `rx`, the bytes `D` delivered so far, the bytes
`W` written so far, and the frames in flight.  Three phases: nothing pending;
a frame pending that the receiver has not accepted yet; a frame pending that
the receiver has accepted and whose acknowledgment has not arrived yet. -/
def Core (tx : Option Frame) (bw : List Nat) (sn : Nat) (rx : Option Frame)
    (D W : List Nat) (ab ba : List Frame) : Prop :=
  (∀ g ∈ ab, g.id ≠ 0) ∧ (∀ g ∈ ba, g.id = 0) ∧
  ((tx = none ∧ W = D ++ bw ∧ (∀ g ∈ ab, HasId rx g.id) ∧ (∀ g ∈ ba, HasId rx g.ack) ∧
      ¬ HasId rx (seqRecv sn).1) ∨
   (∃ f, tx = some f ∧ f.id ≠ 0 ∧ (seqRecv sn).1 ≠ f.id ∧ W = D ++ f.data ++ bw ∧
      ¬ HasId rx f.id ∧ Staged (fun g => HasId rx g.id) (fun g => g = f) ab ∧
      ∀ g ∈ ba, g.ack ≠ f.id) ∨
   (∃ f, tx = some f ∧ f.id ≠ 0 ∧ (seqRecv sn).1 ≠ f.id ∧ W = D ++ bw ∧
      HasId rx f.id ∧ (∀ g ∈ ab, g.id = f.id) ∧
      Staged (fun g => g.ack ≠ f.id) (fun g => g.ack = f.id) ba))

/-- The invariant of the two-endpoint system in which only `a` writes. -/
def Inv (y : Sys) : Prop :=
  y.b.tx = none ∧ y.b.bw = [] ∧
  Core y.a.tx y.a.bw y.a.sn y.b.rx (y.got ++ y.b.br) y.written y.ab y.ba

/-! ## The public stream interface -/

/-- The method `bytes.Buffer.Read` on a buffer holding `b`, into a slice of `k`
bytes: the count, the error, the bytes copied, and the buffer afterwards. -/
def bufRead (b : List Nat) (k : Nat) : Nat × Option Err × List Nat × List Nat :=
  if b.length = 0 then
    if k = 0 then (0, none, [], b) else (0, some Err.EOF, [], b)
  else (min k b.length, none, b.take (min k b.length), b.drop (min k b.length))

/-- The method `bytes.Buffer.Write` on a buffer holding `b`: the count, the
error, and the buffer afterwards. -/
def bufWrite (b p : List Nat) : Nat × Option Err × List Nat :=
  (p.length, none, b ++ p)

/-- The method `Conn.Read` with `len(p) = k`.  Each pass of its loop borrows
`br`, reads, hands `br` back, and returns if bytes were copied; otherwise the
caller sleeps, the event loop meanwhile processes the next list of `gaps`, and
the pass is repeated.  The result is `none` while the call has not returned:
otherwise the count, the error and the bytes copied to `p`. -/
def ConnRead (cf : Config) : State → Nat → List (List Event) →
    Option (Nat × Option Err × List Nat) × State
  | s, k, [] =>
    let r := bufRead s.br k
    if r.1 > 0 then (some (r.1, r.2.1, r.2.2.1), { s with br := r.2.2.2 })
    else (none, { s with br := r.2.2.2 })
  | s, k, g :: gs =>
    let r := bufRead s.br k
    if r.1 > 0 then (some (r.1, r.2.1, r.2.2.1), { s with br := r.2.2.2 })
    else ConnRead cf (run cf { s with br := r.2.2.2 } g).1 k gs

/-- The method `Conn.Write`: the caller borrows `bw`, writes `p` to it and
hands it back, upon which the event loop runs `next`.  Returns the count and
the error, the state, and the frames handed to the transmit pump. -/
def ConnWrite (cf : Config) (s : State) (p : List Nat) (sent : Bool) :
    (Nat × Option Err) × State × List Frame :=
  let w := bufWrite s.bw p
  let r := next cf { s with bw := w.2.2 } sent
  ((w.1, w.2.1), r.1, r.2)

/-! ## Well-formed frames -/

/-- A data frame that `next` can make under the configuration `cf`. -/
def DataWF (cf : Config) (g : Frame) : Prop :=
  g.id ≠ 0 ∧ g.ack = 0 ∧ g.size = g.data.length ∧ 1 ≤ g.size ∧ g.size ≤ cf.MTU

/-- An acknowledgment frame. -/
def AckWF (g : Frame) : Prop :=
  g.id = 0 ∧ g.ack ≠ 0 ∧ g.size = 0 ∧ g.data = []

/-! ## Rounds without loss -/

/-- The work left at the sender: the bytes not framed yet, plus one if a frame
is pending. -/
def remaining (a : State) : Nat :=
  a.bw.length + (if a.tx.isSome then 1 else 0)

/-- A round without loss: the retry tick fires at `a` and the transmit pump
takes the frame, every frame in flight to `b` is delivered, then every frame
in flight to `a` is delivered.  Deliveries on an empty channel do nothing, so
the counts are upper bounds. -/
def flushEvents (y : Sys) : List SysEvent :=
  SysEvent.retryA true true ::
    (List.replicate (y.ab.length + 2) (SysEvent.deliverAB true) ++
      List.replicate (y.ab.length + y.ba.length + 2) (SysEvent.deliverBA true))

/-- The events of `k` rounds without loss, starting in `y`. -/
def settle (cfA cfB : Config) : Nat → Sys → List SysEvent
  | 0, _ => []
  | k + 1, y => flushEvents y ++ settle cfA cfB k (Sys.run cfA cfB y (flushEvents y))

/-! ## Frames that the codec carries unchanged -/

/-- The frame is one the codec carries unchanged: its fields are bytes and its
size is the length of its data. -/
def Wire (g : Frame) : Prop := g.IsBytes ∧ g.size = g.data.length

/-- The bytes passed to `Write` by the event are bytes. -/
def SysEvent.bytesOK : SysEvent → Bool
  | SysEvent.writeA p _ => p.all (fun b => decide (b < 256))
  | _ => true

/-- The sender's variables hold bytes: the outbound buffer, the loop variable
of the sequence goroutine, and the pending frame. -/
def StWire (s : State) : Prop :=
  (∀ b ∈ s.bw, b < 256) ∧ s.sn < 256 ∧ ∀ t, s.tx = some t → Wire t

/-- Every frame of the two-endpoint system, pending at `a` or in flight, is one
the codec carries unchanged. -/
def SysWire (y : Sys) : Prop :=
  StWire y.a ∧ (∀ g ∈ y.ab, Wire g) ∧ (∀ g ∈ y.ba, Wire g)

/-! ## The checksum separates messages that differ in one byte -/

theorem shiftRight_xor (x y k : Nat) : (x ^^^ y) >>> k = (x >>> k) ^^^ (y >>> k) := by
  apply Nat.eq_of_testBit_eq
  intro i
  simp only [Nat.testBit_shiftRight, Nat.testBit_xor]

theorem crcRound_xor (x y : Nat) : crcRound (x ^^^ y) = crcRound x ^^^ crcRound y := by
  unfold crcRound
  by_cases hx : x % 2 = 1 <;> by_cases hy : y % 2 = 1
  · have h : ¬ (x ^^^ y) % 2 = 1 := by rw [Nat.xor_mod_two_eq]; omega
    rw [if_neg h, if_pos hx, if_pos hy, shiftRight_xor]
    rw [Nat.xor_assoc, Nat.xor_comm poly, Nat.xor_assoc, Nat.xor_self, Nat.xor_zero]
  · have h : (x ^^^ y) % 2 = 1 := by rw [Nat.xor_mod_two_eq]; omega
    rw [if_pos h, if_pos hx, if_neg hy, shiftRight_xor]
    rw [Nat.xor_assoc, Nat.xor_assoc, Nat.xor_comm poly]
  · have h : (x ^^^ y) % 2 = 1 := by rw [Nat.xor_mod_two_eq]; omega
    rw [if_pos h, if_neg hx, if_pos hy, shiftRight_xor, Nat.xor_assoc]
  · have h : ¬ (x ^^^ y) % 2 = 1 := by rw [Nat.xor_mod_two_eq]; omega
    rw [if_neg h, if_neg hx, if_neg hy, shiftRight_xor]

theorem crcTab_xor (x y : Nat) : crcTab (x ^^^ y) = crcTab x ^^^ crcTab y := by
  unfold crcTab
  simp only [crcRound_xor]

set_option maxRecDepth 100000 in
theorem crcTab_top_zero : ∀ i < 256, crcTab i >>> 24 = 0 → i = 0 := by decide

set_option maxRecDepth 100000 in
theorem crcTab_lt_aux : ∀ i < 256, crcTab i < 4294967296 := by decide

theorem crcTab_lt {i : Nat} (h : i < 256) : crcTab i < 2 ^ 32 := crcTab_lt_aux i h

theorem xor_lt_256 {a b : Nat} (ha : a < 256) (hb : b < 256) : a ^^^ b < 256 :=
  Nat.xor_lt_two_pow (n := 8) ha hb

theorem crcTab_top_inj {i j : Nat} (hi : i < 256) (hj : j < 256)
    (h : crcTab i >>> 24 = crcTab j >>> 24) : i = j := by
  have h1 : crcTab (i ^^^ j) >>> 24 = 0 := by
    rw [crcTab_xor, shiftRight_xor, h, Nat.xor_self]
  exact Nat.xor_eq_zero.mp (crcTab_top_zero _ (xor_lt_256 hi hj) h1)

theorem crcStep_lt {c v : Nat} (hc : c < 2 ^ 32) (hv : v < 256) : crcStep c v < 2 ^ 32 := by
  unfold crcStep
  apply Nat.xor_lt_two_pow
  · exact crcTab_lt (xor_lt_256 (Nat.mod_lt _ (by norm_num)) hv)
  · rw [Nat.shiftRight_eq_div_pow]; omega

/-- The update step is injective in the pair (state, byte) up to the xor it
forms of them: equal results force equal table indices and equal high parts. -/
theorem crcStep_inj {c1 c2 v1 v2 : Nat} (h1 : c1 < 2 ^ 32) (h2 : c2 < 2 ^ 32)
    (hv1 : v1 < 256) (hv2 : v2 < 256) (h : crcStep c1 v1 = crcStep c2 v2) :
    (c1 % 256) ^^^ v1 = (c2 % 256) ^^^ v2 ∧ c1 >>> 8 = c2 >>> 8 := by
  unfold crcStep at h
  have hs : ∀ c : Nat, c < 2 ^ 32 → (c >>> 8) >>> 24 = 0 := by
    intro c hc
    rw [Nat.shiftRight_eq_div_pow, Nat.shiftRight_eq_div_pow]; omega
  have ht := congrArg (· >>> 24) h
  simp only [shiftRight_xor, hs c1 h1, hs c2 h2, Nat.xor_zero] at ht
  have hi := crcTab_top_inj (xor_lt_256 (Nat.mod_lt _ (by norm_num)) hv1)
    (xor_lt_256 (Nat.mod_lt _ (by norm_num)) hv2) ht
  refine ⟨hi, ?_⟩
  rw [hi] at h
  exact Nat.xor_right_inj.mp h

theorem crcStep_state_inj {c1 c2 v : Nat} (h1 : c1 < 2 ^ 32) (h2 : c2 < 2 ^ 32)
    (hv : v < 256) (h : crcStep c1 v = crcStep c2 v) : c1 = c2 := by
  obtain ⟨ha, hb⟩ := crcStep_inj h1 h2 hv hv h
  have ha' := Nat.xor_left_inj.mp ha
  rw [Nat.shiftRight_eq_div_pow, Nat.shiftRight_eq_div_pow] at hb
  omega

theorem crcStep_byte_inj {c v1 v2 : Nat} (hc : c < 2 ^ 32)
    (hv1 : v1 < 256) (hv2 : v2 < 256) (h : crcStep c v1 = crcStep c v2) : v1 = v2 :=
  Nat.xor_right_inj.mp (crcStep_inj hc hc hv1 hv2 h).1

theorem crcFold_lt (p : List Nat) : ∀ c, c < 2 ^ 32 → (∀ b ∈ p, b < 256) →
    p.foldl crcStep c < 2 ^ 32 := by
  induction p with
  | nil => intro c hc _; simpa using hc
  | cons b p ih =>
    intro c hc hp
    rw [List.foldl_cons]
    exact ih _ (crcStep_lt hc (hp b (List.mem_cons_self _ _)))
      (fun x hx => hp x (List.mem_cons_of_mem _ hx))

theorem crcFold_inj (p : List Nat) : ∀ c1 c2, c1 < 2 ^ 32 → c2 < 2 ^ 32 →
    (∀ b ∈ p, b < 256) → p.foldl crcStep c1 = p.foldl crcStep c2 → c1 = c2 := by
  induction p with
  | nil => intro c1 c2 _ _ _ h; simpa using h
  | cons b p ih =>
    intro c1 c2 h1 h2 hp h
    rw [List.foldl_cons, List.foldl_cons] at h
    have hb := hp b (List.mem_cons_self _ _)
    have := ih _ _ (crcStep_lt h1 hb) (crcStep_lt h2 hb)
      (fun x hx => hp x (List.mem_cons_of_mem _ hx)) h
    exact crcStep_state_inj h1 h2 hb this

theorem ChecksumIEEE_lt (p : List Nat) (hp : ∀ b ∈ p, b < 256) : ChecksumIEEE p < 2 ^ 32 := by
  unfold ChecksumIEEE
  exact Nat.xor_lt_two_pow (crcFold_lt p _ (by norm_num) hp) (by norm_num)

/-- Two messages that agree except in one byte have different checksums. -/
theorem ChecksumIEEE_one_byte (pre post : List Nat) (x y : Nat)
    (hpre : ∀ b ∈ pre, b < 256) (hpost : ∀ b ∈ post, b < 256)
    (hx : x < 256) (hy : y < 256) (hxy : x ≠ y) :
    ChecksumIEEE (pre ++ x :: post) ≠ ChecksumIEEE (pre ++ y :: post) := by
  intro h
  unfold ChecksumIEEE at h
  have h' := Nat.xor_left_inj.mp h
  rw [List.foldl_append, List.foldl_append, List.foldl_cons, List.foldl_cons] at h'
  have hc := crcFold_lt pre _ (show 0xFFFFFFFF < 2 ^ 32 by norm_num) hpre
  have := crcFold_inj post _ _ (crcStep_lt hc hx) (crcStep_lt hc hy) hpost h'
  exact hxy (crcStep_byte_inj hc hx hy this)

/-! ## Reading from a reader that satisfies every request in full -/

theorem Full.unread_eq {r : Reader} {bs : List Nat} (h : Full r bs) : unread r = bs := by
  rcases h with h | ⟨h, h'⟩
  · subst h; simp [FrameConn.unread]
  · subst h; subst h'; simp [FrameConn.unread]

theorem Full.read_exact {r : Reader} (xs ys : List Nat) (h : Full r (xs ++ ys)) :
    ∃ r', Reader.read r xs.length = (xs, none, r') ∧ Full r' ys := by
  cases xs with
  | nil =>
    refine ⟨r, ?_, by simpa using h⟩
    cases r <;> simp [Reader.read]
  | cons a xs =>
    rcases h with h | ⟨_, h'⟩
    · subst h
      by_cases hy : ys = []
      · subst hy
        exact ⟨[], by simp [Reader.read], Or.inr ⟨rfl, rfl⟩⟩
      · refine ⟨[ys], ?_, Or.inl rfl⟩
        have hlen : ¬ (xs ++ ys).length ≤ xs.length := by
          have := List.length_pos.mpr hy
          simp only [List.length_append]; omega
        simp only [List.cons_append, List.length_cons, Reader.read, if_neg hlen]
        simp [hy]
    · simp at h'

theorem Full.readFull_exact {r : Reader} (xs ys : List Nat) (hx : xs ≠ [])
    (h : Full r (xs ++ ys)) :
    ∃ r', readFull r xs.length = (xs, none, r') ∧ Full r' ys := by
  obtain ⟨r', hr, hf⟩ := Full.read_exact xs ys h
  refine ⟨r', ?_, hf⟩
  have hne : xs.length ≠ 0 := by simpa using hx
  unfold FrameConn.readFull
  rw [readFullLoop, if_neg hne, hr]
  simp only [List.nil_append, Nat.sub_self]
  cases hl : xs.length with
  | zero => exact absurd hl hne
  | succ n => simp [readFullLoop]

/-- What `Decode` does on a reader that satisfies every request in full and
holds a header, `z` payload bytes, four trailer bytes and then `t`. -/
theorem Decode_full (g : Frame) (s i a z : Nat) (d tr t : List Nat) {r : Reader}
    (hd : d.length = z) (htr : tr.length = 4)
    (h : Full r ([s, i, a, z] ++ (d ++ (tr ++ t)))) :
    ∃ r1 r3, Full r1 (d ++ (tr ++ t)) ∧ Full r3 t ∧ Decode g r =
      (if s ≠ start then (some Err.ErrInvalidStart, g, r1)
       else if getUint32 tr ≠ ChecksumIEEE ([s, i, a, z] ++ d) then
         (some Err.ErrChecksum, ⟨i, a, z, d⟩, r3)
       else (none, ⟨i, a, z, d⟩, r3)) := by
  obtain ⟨r1, hr1, hf1⟩ := Full.read_exact [s, i, a, z] _ h
  obtain ⟨r2, hr2, hf2⟩ := Full.read_exact d _ hf1
  have htr' : tr ≠ [] := by
    intro h0; subst h0; simp at htr
  obtain ⟨r3, hr3, hf3⟩ := Full.readFull_exact tr t htr' hf2
  refine ⟨r1, r3, hf1, hf3, ?_⟩
  rw [hd] at hr2
  rw [htr] at hr3
  simp only [List.length_cons, List.length_nil] at hr1
  unfold Decode
  rw [hr1]
  simp only [fill, List.length_cons, List.length_nil, List.drop, List.append_nil,
    List.getD_cons_zero, List.getD_cons_succ]
  by_cases hs : s ≠ start
  · simp only [if_pos hs]
  · simp only [if_neg hs, hr2, hr3]
    have hfill : d ++ List.drop d.length (List.replicate z 0) = d := by
      rw [← hd]; simp
    simp only [hfill]

/-! ## Big-endian words -/

theorem putUint32_length (v : Nat) : (putUint32 v).length = 4 := rfl

theorem getUint32_putUint32 (v : Nat) (h : v < 2 ^ 32) : getUint32 (putUint32 v) = v := by
  simp only [getUint32, putUint32, List.getD_cons_zero, List.getD_cons_succ]
  omega

theorem MarshalBinary_bytes {f : Frame} (hb : f.IsBytes) : ∀ b ∈ MarshalBinary f, b < 256 := by
  obtain ⟨h1, h2, h3, h4⟩ := hb
  intro b hmem
  simp only [MarshalBinary, List.cons_append, List.nil_append, List.mem_cons] at hmem
  rcases hmem with h | h | h | h | h
  · subst h; decide
  · subst h; exact h1
  · subst h; exact h2
  · subst h; exact h3
  · exact h4 b h

/-! ## The codec claims -/

/-- The check value of the CRC-32 catalogue: the checksum of the ASCII digits
`123456789` is `0xCBF43926`. -/
theorem ChecksumIEEE_check :
    ChecksumIEEE [49, 50, 51, 52, 53, 54, 55, 56, 57] = 0xCBF43926 := by
  set_option maxRecDepth 100000 in decide

/-- C2, framing round-trip: for a frame whose fields are bytes and whose size
is the length of its data, decoding from a reader that satisfies every request
in full and holds the encoded frame followed by `t` returns no error, yields
the same frame, and leaves exactly `t` unread. -/
theorem decode_encode_roundtrip (f g : Frame) (t : List Nat)
    (hb : f.IsBytes) (hsize : f.size = f.data.length) :
    (Decode g [(Encode f []).2 ++ t]).1 = none ∧
    (Decode g [(Encode f []).2 ++ t]).2.1 = f ∧
    unread (Decode g [(Encode f []).2 ++ t]).2.2 = t := by
  have hfull : Full [(Encode f []).2 ++ t]
      ([start, f.id, f.ack, f.size] ++ (f.data ++ (putUint32 (ChecksumIEEE (MarshalBinary f)) ++ t))) := by
    left
    simp [Encode, MarshalBinary]
  obtain ⟨r1, r3, _, hf3, hdec⟩ :=
    Decode_full g start f.id f.ack f.size f.data _ t hsize.symm (putUint32_length _) hfull
  have hc : getUint32 (putUint32 (ChecksumIEEE (MarshalBinary f))) =
      ChecksumIEEE ([start, f.id, f.ack, f.size] ++ f.data) :=
    getUint32_putUint32 _ (ChecksumIEEE_lt _ (MarshalBinary_bytes hb))
  rw [hdec]
  simp only [ne_eq, not_true_eq_false, if_false, hc]
  exact ⟨trivial, trivial, hf3.unread_eq⟩

/-- Witness of C2 at the frame `(1, 0, 3, [10, 20, 30])` followed by `[7, 7]`. -/
theorem decode_encode_roundtrip_witness :
    (Decode ⟨0, 0, 0, []⟩ [(Encode ⟨1, 0, 3, [10, 20, 30]⟩ []).2 ++ [7, 7]]).1 = none ∧
    (Decode ⟨0, 0, 0, []⟩ [(Encode ⟨1, 0, 3, [10, 20, 30]⟩ []).2 ++ [7, 7]]).2.1
      = ⟨1, 0, 3, [10, 20, 30]⟩ ∧
    unread (Decode ⟨0, 0, 0, []⟩ [(Encode ⟨1, 0, 3, [10, 20, 30]⟩ []).2 ++ [7, 7]]).2.2
      = [7, 7] :=
  decode_encode_roundtrip ⟨1, 0, 3, [10, 20, 30]⟩ ⟨0, 0, 0, []⟩ [7, 7] (by decide) (by decide)

/-- C4, invalid start rejection: on a stream of at least four bytes whose first
byte is not the marker, `Decode` fails with `ErrInvalidStart`, leaves the
receiver untouched, and has consumed exactly the four header bytes. -/
theorem decode_invalid_start (g : Frame) (bs : List Nat)
    (hlen : 4 ≤ bs.length) (hstart : bs.getD 0 0 ≠ start) :
    (Decode g [bs]).1 = some Err.ErrInvalidStart ∧
    (Decode g [bs]).2.1 = g ∧
    unread (Decode g [bs]).2.2 = bs.drop 4 := by
  match bs, hlen with
  | s :: i :: a :: z :: rest, _ =>
    obtain ⟨r1, hr1, hf1⟩ := Full.read_exact (r := [s :: i :: a :: z :: rest]) [s, i, a, z] rest (Or.inl rfl)
    simp only [List.length_cons, List.length_nil] at hr1
    simp only [List.getD_cons_zero] at hstart
    unfold Decode
    rw [hr1]
    simp only [fill, List.length_cons, List.length_nil, List.drop, List.append_nil,
      List.getD_cons_zero, ne_eq, hstart, not_false_eq_true, if_true]
    exact ⟨trivial, trivial, hf1.unread_eq⟩

/-- Witness of C4 at the stream `[0, 1, 2, 3, 4, 5]`. -/
theorem decode_invalid_start_witness :
    (Decode ⟨0, 0, 0, []⟩ [[0, 1, 2, 3, 4, 5]]).1 = some Err.ErrInvalidStart ∧
    (Decode ⟨0, 0, 0, []⟩ [[0, 1, 2, 3, 4, 5]]).2.1 = ⟨0, 0, 0, []⟩ ∧
    unread (Decode ⟨0, 0, 0, []⟩ [[0, 1, 2, 3, 4, 5]]).2.2 = [0, 1, 2, 3, 4, 5].drop 4 :=
  decode_invalid_start ⟨0, 0, 0, []⟩ [0, 1, 2, 3, 4, 5] (by decide) (by decide)

/-- C5, at a failing input: the encoded frame `(1, 0, 3, [10, 20, 30])` delivered
one byte per read call.  The single header `Read` obtains the marker alone, the
size is taken to be 0, the next four bytes are read as the checksum, and
`Decode` fails with `ErrChecksum` with six bytes left unread. -/
theorem decode_short_read_fails :
    (Encode ⟨1, 0, 3, [10, 20, 30]⟩ []).2 = [235, 1, 0, 3, 10, 20, 30, 156, 20, 62, 56] ∧
    Decode ⟨0, 0, 0, []⟩ [[235], [1], [0], [3], [10], [20], [30], [156], [20], [62], [56]]
      = (some Err.ErrChecksum, ⟨0, 0, 0, []⟩, [[20], [30], [156], [20], [62], [56]]) := by
  set_option maxRecDepth 100000 in decide

/-- C6, wire layout: `Encode` writes the marker, id, ack, size, the data and
then the four bytes of the IEEE CRC-32 of everything before, most significant
byte first (these four bytes read as a base-256 number give the checksum modulo
`2 ^ 32`); the total length is `8 + len(data)`. -/
theorem encode_wire_layout (f : Frame) :
    (Encode f []).1 = none ∧
    (Encode f []).2 = [0xEB, f.id, f.ack, f.size] ++ f.data ++
      [ChecksumIEEE ([0xEB, f.id, f.ack, f.size] ++ f.data) / 2 ^ 24 % 256,
       ChecksumIEEE ([0xEB, f.id, f.ack, f.size] ++ f.data) / 2 ^ 16 % 256,
       ChecksumIEEE ([0xEB, f.id, f.ack, f.size] ++ f.data) / 2 ^ 8 % 256,
       ChecksumIEEE ([0xEB, f.id, f.ack, f.size] ++ f.data) % 256] ∧
    (ChecksumIEEE ([0xEB, f.id, f.ack, f.size] ++ f.data) / 2 ^ 24 % 256) * 2 ^ 24 +
      (ChecksumIEEE ([0xEB, f.id, f.ack, f.size] ++ f.data) / 2 ^ 16 % 256) * 2 ^ 16 +
      (ChecksumIEEE ([0xEB, f.id, f.ack, f.size] ++ f.data) / 2 ^ 8 % 256) * 2 ^ 8 +
      ChecksumIEEE ([0xEB, f.id, f.ack, f.size] ++ f.data) % 256
      = ChecksumIEEE ([0xEB, f.id, f.ack, f.size] ++ f.data) % 2 ^ 32 ∧
    (Encode f []).2.length = 8 + f.data.length := by
  refine ⟨rfl, ?_, ?_, ?_⟩
  · simp [Encode, MarshalBinary, putUint32, start]
  · generalize ChecksumIEEE ([0xEB, f.id, f.ack, f.size] ++ f.data) = c
    norm_num
    omega
  · simp [Encode, MarshalBinary, putUint32]
    omega

/-! ## A flipped bit -/

theorem flip_mask {x k : Nat} (hx : x < 256) (hk : k < 8) :
    x ^^^ 2 ^ k < 256 ∧ x ^^^ 2 ^ k ≠ x := by
  constructor
  · apply xor_lt_256 hx
    calc 2 ^ k < 2 ^ 8 := Nat.pow_lt_pow_right (by norm_num) hk
      _ = 256 := by norm_num
  · intro h
    have h0 : x ^^^ 2 ^ k = x ^^^ 0 := by rw [Nat.xor_zero]; exact h
    have := Nat.xor_right_inj.mp h0
    exact absurd this (by positivity)

theorem getD_lt_256 {l : List Nat} (h : ∀ b ∈ l, b < 256) (j : Nat) : l.getD j 0 < 256 := by
  by_cases hj : j < l.length
  · rw [List.getD_eq_getElem _ _ hj]; exact h _ (List.getElem_mem _)
  · rw [List.getD_eq_default _ _ (by omega)]; decide

/-- Replacing one byte of a message by a different byte changes its checksum. -/
theorem ChecksumIEEE_set_ne (msg : List Nat) (j v : Nat) (hmsg : ∀ b ∈ msg, b < 256)
    (hj : j < msg.length) (hv : v < 256) (hne : v ≠ msg.getD j 0) :
    ChecksumIEEE (msg.set j v) ≠ ChecksumIEEE msg := by
  rw [List.getD_eq_getElem _ _ hj] at hne
  have key := ChecksumIEEE_one_byte (msg.take j) (msg.drop (j + 1)) v msg[j]
    (fun b hb => hmsg b (List.mem_of_mem_take hb))
    (fun b hb => hmsg b (List.mem_of_mem_drop hb)) hv (hmsg _ (List.getElem_mem _)) hne
  rw [List.getElem_cons_drop, List.take_append_drop] at key
  rw [List.set_eq_take_append_cons_drop, if_pos hj]
  exact key

theorem getUint32_set_ne (tr : List Nat) (k v : Nat) (htr : tr.length = 4)
    (hb : ∀ b ∈ tr, b < 256) (hk : k < 4) (hne : v ≠ tr.getD k 0) :
    getUint32 (tr.set k v) ≠ getUint32 tr := by
  match tr, htr with
  | [a, b, c, d], _ =>
    have ha : a < 256 := hb a (by simp)
    have hb' : b < 256 := hb b (by simp)
    have hc : c < 256 := hb c (by simp)
    have hd : d < 256 := hb d (by simp)
    match k, hk with
    | 0, _ | 1, _ | 2, _ | 3, _ =>
      simp only [List.getD_cons_zero, List.getD_cons_succ] at hne
      simp only [getUint32, List.set, List.getD_cons_zero, List.getD_cons_succ]
      omega

theorem putUint32_bytes (v : Nat) : ∀ b ∈ putUint32 v, b < 256 := by
  intro b hb
  simp only [putUint32, List.mem_cons, List.mem_singleton, List.not_mem_nil, or_false] at hb
  omega

/-- The error of `Decode` on a reader that satisfies every request in full and
holds a message of `4 + size` bytes followed by four trailer bytes. -/
theorem Decode_err_msg (g : Frame) (msg tr : List Nat)
    (hlen : msg.length = 4 + msg.getD 3 0) (htr : tr.length = 4) :
    (Decode g [msg ++ tr]).1 =
      if msg.getD 0 0 ≠ start then some Err.ErrInvalidStart
      else if getUint32 tr ≠ ChecksumIEEE msg then some Err.ErrChecksum else none := by
  match msg, hlen with
  | s :: i :: a :: z :: d, hlen =>
    simp only [List.getD_cons_zero, List.getD_cons_succ, List.length_cons] at hlen ⊢
    obtain ⟨r1, r3, _, _, hdec⟩ := Decode_full g s i a z d tr [] (r := [s :: i :: a :: z :: d ++ tr])
      (by omega) htr (Or.inl (by simp))
    simp only [List.cons_append, List.nil_append] at hdec ⊢
    rw [hdec]
    split_ifs <;> rfl

/-- C3 as amended: for a frame whose fields are bytes and whose size is the
length of its data, `Decode` of the encoded bytes with one bit flipped fails
with `ErrInvalidStart` when the bit lies in the start byte, and with
`ErrChecksum` when it lies in the id byte, the ack byte, the payload or the
checksum (the size byte is left out). -/
theorem decode_flipped_bit (f g : Frame) (p : Nat)
    (hb : f.IsBytes) (hsize : f.size = f.data.length)
    (hp : p < 8 * (Encode f []).2.length) (h3 : p / 8 ≠ 3) :
    (Decode g [flipBit (Encode f []).2 p]).1 =
      some (if p / 8 = 0 then Err.ErrInvalidStart else Err.ErrChecksum) := by
  have hk : p % 8 < 8 := Nat.mod_lt _ (by norm_num)
  have hmsgb := MarshalBinary_bytes hb
  have hmlen : (MarshalBinary f).length = 4 + f.data.length := by
    simp [MarshalBinary]; omega
  have hc := getUint32_putUint32 _ (ChecksumIEEE_lt _ hmsgb)
  have henc : (Encode f []).2 = MarshalBinary f ++ putUint32 (ChecksumIEEE (MarshalBinary f)) := by
    simp [Encode]
  rw [henc] at hp ⊢
  simp only [List.length_append, putUint32_length] at hp
  unfold flipBit
  by_cases hi : p / 8 < (MarshalBinary f).length
  · -- the bit lies in the header or in the payload
    rw [List.getD_append _ _ _ _ hi, List.set_append_left _ _ hi]
    obtain ⟨hv, hne⟩ := flip_mask (getD_lt_256 hmsgb (p / 8)) hk
    have h3' : ((MarshalBinary f).set (p / 8) ((MarshalBinary f).getD (p / 8) 0 ^^^ 2 ^ (p % 8))).getD 3 0
        = f.size := by
      rw [List.getD_eq_getElem?_getD, List.getElem?_set_ne h3]
      simp [MarshalBinary]
    rw [Decode_err_msg _ _ _ (by rw [h3', List.length_set, hmlen, hsize]) (putUint32_length _)]
    by_cases h0 : p / 8 = 0
    · rw [h0, if_pos rfl]
      have : ((MarshalBinary f).set 0 ((MarshalBinary f).getD 0 0 ^^^ 2 ^ (p % 8))).getD 0 0 ≠ start := by
        rw [h0] at hne
        simpa [MarshalBinary] using hne
      rw [if_pos this]
    · have hs : ((MarshalBinary f).set (p / 8) ((MarshalBinary f).getD (p / 8) 0 ^^^ 2 ^ (p % 8))).getD 0 0
          = start := by
        rw [List.getD_eq_getElem?_getD, List.getElem?_set_ne h0]
        simp [MarshalBinary]
      rw [if_neg h0, if_neg (by rw [hs]; simp), hc, if_pos]
      exact (ChecksumIEEE_set_ne _ _ _ hmsgb hi hv hne).symm
  · -- the bit lies in the checksum
    have hi' : (MarshalBinary f).length ≤ p / 8 := by omega
    have h0 : p / 8 ≠ 0 := by omega
    rw [List.getD_append_right _ _ _ _ hi', List.set_append_right _ _ hi']
    obtain ⟨_, hne⟩ := flip_mask
      (getD_lt_256 (putUint32_bytes (ChecksumIEEE (MarshalBinary f))) (p / 8 - (MarshalBinary f).length)) hk
    rw [Decode_err_msg _ _ _ (by rw [hmlen]; simp [MarshalBinary, hsize]) (by simp [putUint32_length])]
    have hs : (MarshalBinary f).getD 0 0 = start := by simp [MarshalBinary]
    rw [if_neg h0, if_neg (by rw [hs]; simp), if_pos]
    have key := getUint32_set_ne _ _ _ (putUint32_length (ChecksumIEEE (MarshalBinary f)))
      (putUint32_bytes _) (show p / 8 - (MarshalBinary f).length < 4 by omega) hne
    rw [hc] at key
    exact key

/-- Witness of the amended C3: bit 3 of the second payload byte of the encoded
frame `(1, 0, 3, [10, 20, 30])`. -/
theorem decode_flipped_bit_witness :
    (Decode ⟨0, 0, 0, []⟩ [flipBit (Encode ⟨1, 0, 3, [10, 20, 30]⟩ []).2 43]).1 =
      some (if 43 / 8 = 0 then Err.ErrInvalidStart else Err.ErrChecksum) :=
  decode_flipped_bit ⟨1, 0, 3, [10, 20, 30]⟩ ⟨0, 0, 0, []⟩ 43 (by decide) (by decide)
    (by decide) (by decide)

/-- C3 refuted as stated, at the encoded frame `(1, 0, 3, [10, 20, 30])`:
with bit 0 of the start byte flipped `Decode` fails with `ErrInvalidStart`, and
with bit 2 of the size byte flipped (size 7 instead of 3) it runs out of bytes
and fails with `io.EOF`; neither is `ErrChecksum`. -/
theorem decode_flipped_bit_not_checksum :
    (⟨1, 0, 3, [10, 20, 30]⟩ : Frame).IsBytes ∧
    (⟨1, 0, 3, [10, 20, 30]⟩ : Frame).size = (⟨1, 0, 3, [10, 20, 30]⟩ : Frame).data.length ∧
    flipBit (Encode ⟨1, 0, 3, [10, 20, 30]⟩ []).2 0
      = [234, 1, 0, 3, 10, 20, 30, 156, 20, 62, 56] ∧
    (Decode ⟨0, 0, 0, []⟩ [flipBit (Encode ⟨1, 0, 3, [10, 20, 30]⟩ []).2 0]).1
      = some Err.ErrInvalidStart ∧
    (Decode ⟨0, 0, 0, []⟩ [flipBit (Encode ⟨1, 0, 3, [10, 20, 30]⟩ []).2 0]).1
      ≠ some Err.ErrChecksum ∧
    flipBit (Encode ⟨1, 0, 3, [10, 20, 30]⟩ []).2 26
      = [235, 1, 0, 7, 10, 20, 30, 156, 20, 62, 56] ∧
    (Decode ⟨0, 0, 0, []⟩ [flipBit (Encode ⟨1, 0, 3, [10, 20, 30]⟩ []).2 26]).1
      = some Err.EOF := by
  set_option maxRecDepth 100000 in decide

/-- Why the size byte is left out: the frame `(1, 0, 4, [33, 248, 115, 18])`,
whose payload is the checksum of the header `(0xEB, 1, 0, 0)`, with bit 2 of its
size byte flipped decodes without error as the empty frame `(1, 0, 0, [])`. -/
theorem decode_flipped_size_bit_accepted :
    Decode ⟨0, 0, 0, []⟩ [flipBit (Encode ⟨1, 0, 4, [33, 248, 115, 18]⟩ []).2 26]
      = (none, ⟨1, 0, 0, []⟩, [[188, 157, 250, 100]]) := by
  set_option maxRecDepth 100000 in decide

/-! ## The sequencer -/

theorem seqRecv_fst_ne_zero (n : Nat) : (seqRecv n).1 ≠ 0 := by
  unfold seqRecv byteSucc
  split <;> simp_all

theorem seqRecv_fst_ne_next (n : Nat) : (seqRecv (seqRecv n).2).1 ≠ (seqRecv n).1 := by
  unfold seqRecv byteSucc
  split_ifs <;> simp only <;> omega

theorem seqAfter_succ (k : Nat) : seqAfter (k + 1) = (k % 255 + 2) % 256 := by
  induction k with
  | zero => rfl
  | succ k ih =>
    rw [seqAfter, ih]
    unfold seqRecv byteSucc
    split_ifs <;> simp only <;> omega

theorem seqNth_eq (k : Nat) (hk : 1 ≤ k) : seqNth k = (k - 1) % 255 + 1 := by
  unfold seqNth
  obtain ⟨j, rfl⟩ : ∃ j, k = j + 1 := ⟨k - 1, by omega⟩
  simp only [Nat.add_sub_cancel]
  cases j with
  | zero => rfl
  | succ j =>
    rw [seqAfter_succ]
    unfold seqRecv byteSucc
    split_ifs <;> simp only <;> omega

/-! ## The closure `next` -/

theorem next_pending (cf : Config) (s : State) (sent : Bool) (h : s.tx ≠ none) :
    next cf s sent = (s, []) := by
  unfold next
  have : s.tx.isSome = true := by
    cases hs : s.tx with
    | none => exact absurd hs h
    | some _ => rfl
  simp [this]

theorem next_empty (cf : Config) (s : State) (sent : Bool) (h : s.bw = []) :
    next cf s sent = (s, []) := by
  unfold next
  simp [h]

theorem next_frame (cf : Config) (s : State) (sent : Bool) (htx : s.tx = none)
    (hbw : s.bw ≠ []) :
    next cf s sent =
      ({ s with bw := s.bw.drop (min cf.MTU s.bw.length),
                tx := some ⟨(seqRecv s.sn).1, 0, min cf.MTU s.bw.length % 256,
                  s.bw.take (min cf.MTU s.bw.length)⟩,
                sn := (seqRecv s.sn).2 },
       if sent then [⟨(seqRecv s.sn).1, 0, min cf.MTU s.bw.length % 256,
                  s.bw.take (min cf.MTU s.bw.length)⟩] else []) := by
  unfold next
  have h1 : ¬ (s.tx.isSome = true ∨ s.bw.length = 0) := by
    simp [htx, hbw]
  rw [if_neg h1]

/-- C10, sequencer cycle: for `k ≥ 1` the `k`-th value supplied is
`((k - 1) mod 255) + 1`, it is never 0, the 256th value is 1, and the frame
that `next` makes out of the `k`-th value carries it as its id. -/
theorem sequencer_cycle (k : Nat) (hk : 1 ≤ k) :
    seqNth k = (k - 1) % 255 + 1 ∧ seqNth k ≠ 0 ∧ seqNth 256 = 1 ∧
    ∀ (cf : Config) (s : State) (sent : Bool), s.tx = none → s.bw ≠ [] →
      s.sn = seqAfter (k - 1) →
      (next cf s sent).1.tx.map (·.id) = some ((k - 1) % 255 + 1) ∧
      (next cf s sent).1.sn = seqAfter k := by
  have h1 := seqNth_eq k hk
  refine ⟨h1, by omega, by rw [seqNth_eq 256 (by norm_num)], ?_⟩
  intro cf s sent htx hbw hsn
  rw [next_frame cf s sent htx hbw]
  obtain ⟨j, rfl⟩ : ∃ j, k = j + 1 := ⟨k - 1, by omega⟩
  simp only [Nat.add_sub_cancel] at hsn h1 ⊢
  simp only [Option.map_some', hsn, seqAfter]
  unfold seqNth at h1
  simp only [Nat.add_sub_cancel] at h1
  rw [h1]
  exact ⟨rfl, trivial⟩

/-- Witness of C10 at `k = 256`, the first value after the wrap. -/
theorem sequencer_cycle_witness :
    seqNth 256 = (256 - 1) % 255 + 1 ∧ seqNth 256 ≠ 0 ∧ seqNth 256 = 1 ∧
    ∀ (cf : Config) (s : State) (sent : Bool), s.tx = none → s.bw ≠ [] →
      s.sn = seqAfter (256 - 1) →
      (next cf s sent).1.tx.map (·.id) = some ((256 - 1) % 255 + 1) ∧
      (next cf s sent).1.sn = seqAfter 256 :=
  sequencer_cycle 256 (by decide)

/-! ## Inbound frames -/

/-- C7, duplicate suppression: when the last accepted frame is absent or has
an id different from that of the data frame `f`, delivering `f` twice in a row
appends `f.data` to the inbound buffer once (the second delivery changes
nothing) and each delivery hands the acknowledgment `(0, f.id, 0, no data)` to
the transmit pump. -/
theorem duplicate_suppression (cf : Config) (s : State) (f : Frame) (c1 c2 : Bool)
    (hid : f.id ≠ 0) (hrx : ∀ r, s.rx = some r → r.id ≠ f.id) :
    (step cf s (Event.frame f c1)).1.br = s.br ++ f.data ∧
    (step cf (step cf s (Event.frame f c1)).1 (Event.frame f c2)).1.br = s.br ++ f.data ∧
    (step cf (step cf s (Event.frame f c1)).1 (Event.frame f c2)).1
      = (step cf s (Event.frame f c1)).1 ∧
    (step cf s (Event.frame f c1)).2.frames = [⟨0, f.id, 0, []⟩] ∧
    (step cf (step cf s (Event.frame f c1)).1 (Event.frame f c2)).2.frames
      = [⟨0, f.id, 0, []⟩] := by
  have h1 : step cf s (Event.frame f c1)
      = ({ s with rx := some f, br := s.br ++ f.data }, ⟨[⟨0, f.id, 0, []⟩], []⟩) := by
    simp only [step, if_neg hid]
    cases hs : s.rx with
    | none => rfl
    | some r => simp only [ne_eq, hrx r hs, not_false_eq_true, if_true]
  have h2 : step cf { s with rx := some f, br := s.br ++ f.data } (Event.frame f c2)
      = ({ s with rx := some f, br := s.br ++ f.data }, ⟨[⟨0, f.id, 0, []⟩], []⟩) := by
    simp only [step, if_neg hid, ne_eq, not_true_eq_false, if_false]
  rw [h1]
  simp only [h2, and_self]

/-- Witness of C7: the frame `(5, 0, 2, [8, 9])` delivered twice to the initial state. -/
theorem duplicate_suppression_witness :
    (step defaultConfig State.init (Event.frame ⟨5, 0, 2, [8, 9]⟩ true)).1.br
      = State.init.br ++ [8, 9] ∧
    (step defaultConfig (step defaultConfig State.init (Event.frame ⟨5, 0, 2, [8, 9]⟩ true)).1
      (Event.frame ⟨5, 0, 2, [8, 9]⟩ true)).1.br = State.init.br ++ [8, 9] ∧
    (step defaultConfig (step defaultConfig State.init (Event.frame ⟨5, 0, 2, [8, 9]⟩ true)).1
      (Event.frame ⟨5, 0, 2, [8, 9]⟩ true)).1
      = (step defaultConfig State.init (Event.frame ⟨5, 0, 2, [8, 9]⟩ true)).1 ∧
    (step defaultConfig State.init (Event.frame ⟨5, 0, 2, [8, 9]⟩ true)).2.frames
      = [⟨0, 5, 0, []⟩] ∧
    (step defaultConfig (step defaultConfig State.init (Event.frame ⟨5, 0, 2, [8, 9]⟩ true)).1
      (Event.frame ⟨5, 0, 2, [8, 9]⟩ true)).2.frames = [⟨0, 5, 0, []⟩] :=
  duplicate_suppression defaultConfig State.init ⟨5, 0, 2, [8, 9]⟩ true true (by decide)
    (by intro r h; cases h)

/-! ## One frame outstanding -/

/-- While the frame `f` is pending, a pass of the loop either processes an
acknowledgment of `f`, or keeps `f` pending, draws no sequence number, and
hands no data frame but `f` to the transmit pump. -/
theorem step_pending (cf : Config) (s : State) (e : Event) (f : Frame)
    (h : s.tx = some f) :
    (∃ a c, e = Event.frame a c ∧ a.id = 0 ∧ a.ack = f.id) ∨
    ((step cf s e).1.tx = some f ∧ (step cf s e).1.sn = s.sn ∧
      ∀ g ∈ (step cf s e).2.frames, g.id ≠ 0 → g = f) := by
  have hne : s.tx ≠ none := by rw [h]; simp
  cases e with
  | read n => right; simp [step, h]
  | write p sent =>
    right
    have hn := next_pending cf { s with bw := s.bw ++ p } sent hne
    simp only [step, hn]
    exact ⟨h, trivial, by simp⟩
  | frame a c =>
    by_cases ha : a.id = 0
    · by_cases hack : f.id = a.ack
      · left; exact ⟨a, c, rfl, ha, hack.symm⟩
      · right; simp [step, ha, h, hack]
    · right
      have hs : (step cf s (Event.frame a c)).2.frames = [⟨0, a.id, 0, []⟩] := by
        simp [step, ha]
      have ht : (step cf s (Event.frame a c)).1.tx = some f ∧
          (step cf s (Event.frame a c)).1.sn = s.sn := by
        simp only [step, if_neg ha]
        cases s.rx with
        | none => exact ⟨h, rfl⟩
        | some r => dsimp only; split_ifs <;> exact ⟨h, rfl⟩
      refine ⟨ht.1, ht.2, ?_⟩
      rw [hs]
      intro g hg hid
      simp only [List.mem_singleton] at hg
      subst hg
      exact absurd rfl hid
  | retry sent resent =>
    right
    have hn := next_pending cf s sent hne
    simp only [step, hn, h]
    refine ⟨trivial, trivial, ?_⟩
    intro g hg _
    cases resent <;> simp at hg
    exact hg

/-- C8, at most one outstanding frame: after any sequence of events from the
initial state in which a frame `f` is pending, the next pass of the loop either
processes an acknowledgment frame whose ack equals `f.id`, or leaves `f` the
pending frame, draws no sequence number, and hands no data frame other than `f`
to the transmit pump; and `next` frames nothing and draws no sequence number
whenever a frame is pending at the moment it runs. -/
theorem one_outstanding (cf : Config) (es : List Event) (e : Event) (f : Frame)
    (h : (run cf State.init es).1.tx = some f) :
    ((∃ a c, e = Event.frame a c ∧ a.id = 0 ∧ a.ack = f.id) ∨
      ((step cf (run cf State.init es).1 e).1.tx = some f ∧
        (step cf (run cf State.init es).1 e).1.sn = (run cf State.init es).1.sn ∧
        ∀ g ∈ (step cf (run cf State.init es).1 e).2.frames, g.id ≠ 0 → g = f)) ∧
    (∀ (t : State) (c : Bool), t.tx ≠ none → next cf t c = (t, [])) :=
  ⟨step_pending cf _ e f h, fun t c ht => next_pending cf t c ht⟩

/-- Witness of C8: after a `Write` of three bytes with MTU 2 the frame
`(1, 0, 2, [1, 2])` is pending, and a retry tick resends it. -/
theorem one_outstanding_witness :
    ((∃ a c, Event.retry true true = Event.frame a c ∧ a.id = 0 ∧
        a.ack = (⟨1, 0, 2, [1, 2]⟩ : Frame).id) ∨
      ((step ⟨2, 0⟩ (run ⟨2, 0⟩ State.init [Event.write [1, 2, 3] true]).1
          (Event.retry true true)).1.tx = some ⟨1, 0, 2, [1, 2]⟩ ∧
        (step ⟨2, 0⟩ (run ⟨2, 0⟩ State.init [Event.write [1, 2, 3] true]).1
          (Event.retry true true)).1.sn
          = (run ⟨2, 0⟩ State.init [Event.write [1, 2, 3] true]).1.sn ∧
        ∀ g ∈ (step ⟨2, 0⟩ (run ⟨2, 0⟩ State.init [Event.write [1, 2, 3] true]).1
          (Event.retry true true)).2.frames, g.id ≠ 0 → g = ⟨1, 0, 2, [1, 2]⟩)) ∧
    (∀ (t : State) (c : Bool), t.tx ≠ none → next ⟨2, 0⟩ t c = (t, [])) :=
  one_outstanding ⟨2, 0⟩ [Event.write [1, 2, 3] true] (Event.retry true true)
    ⟨1, 0, 2, [1, 2]⟩ (by decide)

/-! ## Segmentation -/

theorem ackEach_none (cf : Config) (fuel : Nat) (s : State) (h : s.tx = none) :
    ackEach cf fuel s = [] := by
  cases fuel with
  | zero => rfl
  | succ n => simp [ackEach, h]

theorem step_ack (cf : Config) (s : State) (f : Frame) (c : Bool) (h : s.tx = some f) :
    step cf s (Event.frame ⟨0, f.id, 0, []⟩ c)
      = ((next cf { s with tx := none } c).1, ⟨(next cf { s with tx := none } c).2, []⟩) := by
  simp [step, h]

theorem take_min_length (l : List Nat) (m : Nat) : l.take (min m l.length) = l.take m := by
  by_cases h : m ≤ l.length
  · rw [Nat.min_eq_left h]
  · rw [Nat.min_eq_right (by omega), List.take_of_length_le (Nat.le_refl _),
      List.take_of_length_le (by omega)]

theorem drop_min_length (l : List Nat) (m : Nat) : l.drop (min m l.length) = l.drop m := by
  by_cases h : m ≤ l.length
  · rw [Nat.min_eq_left h]
  · rw [Nat.min_eq_right (by omega), List.drop_of_length_le (Nat.le_refl _),
      List.drop_of_length_le (by omega)]

theorem ceil_div_step (L m : Nat) (hm : 1 ≤ m) (hL : 1 ≤ L) :
    (L + m - 1) / m = ((L - m) + m - 1) / m + 1 := by
  by_cases h : m ≤ L
  · have : L + m - 1 = ((L - m) + m - 1) + m := by omega
    rw [this, Nat.add_div_right _ (by omega)]
  · have h0 : L - m = 0 := by omega
    rw [h0, Nat.zero_add, Nat.div_eq_of_lt (show m - 1 < m by omega)]
    exact Nat.div_eq_of_lt_le (by rw [Nat.one_mul]; omega)
      (by show L + m - 1 < 2 * m; omega)

/-- The segments of `w` of `m` bytes each, the last one possibly shorter. -/
theorem segments_cons (w : List Nat) (m : Nat) (hm : 1 ≤ m) (hw : w ≠ []) :
    (List.range ((w.length + m - 1) / m)).map (fun j => (w.drop (j * m)).take m)
      = w.take m :: (List.range (((w.drop m).length + m - 1) / m)).map
          (fun j => ((w.drop m).drop (j * m)).take m) := by
  have hL : 1 ≤ w.length := List.length_pos.mpr hw
  rw [ceil_div_step _ _ hm hL, List.range_succ_eq_map, List.map_cons, List.map_map,
    List.length_drop]
  simp only [Nat.zero_mul, List.drop_zero, List.drop_drop, List.cons.injEq, true_and]
  apply List.map_congr_left
  intro j _
  simp only [Function.comp, Nat.succ_eq_add_one]
  rw [show (j + 1) * m = m + j * m by rw [Nat.add_mul]; omega]

/-- Starting with no frame pending, `next` followed by the acknowledgment of
each frame in turn hands the segments of the outbound buffer to the pump. -/
theorem next_ackEach (cf : Config) (hm1 : 1 ≤ cf.MTU) (hm2 : cf.MTU ≤ 255) :
    ∀ (fuel : Nat) (t : State), t.tx = none → t.bw.length ≤ fuel →
    (((next cf t true).2 ++ ackEach cf fuel (next cf t true).1).map (·.data)
      = (List.range ((t.bw.length + cf.MTU - 1) / cf.MTU)).map
          (fun j => (t.bw.drop (j * cf.MTU)).take cf.MTU)) ∧
    (((next cf t true).2 ++ ackEach cf fuel (next cf t true).1).map (·.data)).flatten = t.bw ∧
    ∀ g ∈ (next cf t true).2 ++ ackEach cf fuel (next cf t true).1,
      g.id ≠ 0 ∧ g.ack = 0 ∧ g.size = g.data.length ∧ 1 ≤ g.data.length ∧
        g.data.length ≤ cf.MTU := by
  intro fuel
  induction fuel with
  | zero =>
    intro t htx hlen
    have hbw : t.bw = [] := List.length_eq_zero.mp (by omega)
    rw [next_empty cf t true hbw, hbw]
    simp [ackEach, Nat.div_eq_of_lt (show cf.MTU - 1 < cf.MTU by omega)]
  | succ fuel ih =>
    intro t htx hlen
    by_cases hbw : t.bw = []
    · rw [next_empty cf t true hbw, ackEach_none cf _ t htx, hbw]
      simp [Nat.div_eq_of_lt (show cf.MTU - 1 < cf.MTU by omega)]
    · have hL : 1 ≤ t.bw.length := List.length_pos.mpr hbw
      rw [next_frame cf t true htx hbw, take_min_length, drop_min_length]
      simp only [if_true, ackEach, step, ↓reduceIte]
      have hlen' : (t.bw.drop cf.MTU).length ≤ fuel := by
        rw [List.length_drop]; omega
      obtain ⟨h1, h2, h3⟩ := ih
        { br := t.br, bw := t.bw.drop cf.MTU, rx := t.rx, tx := none, sn := (seqRecv t.sn).2 }
        rfl hlen'
      simp only at h1 h2 h3
      refine ⟨?_, ?_, ?_⟩
      · rw [segments_cons t.bw cf.MTU hm1 hbw, ← h1]
        simp
      · simp only [List.singleton_append, List.map_cons, List.flatten_cons, h2,
          List.take_append_drop]
      · intro g hg
        simp only [List.singleton_append, List.mem_cons] at hg
        rcases hg with hg | hg
        · subst hg
          simp only [List.length_take]
          refine ⟨seqRecv_fst_ne_zero _, trivial, ?_, ?_, ?_⟩ <;> omega
        · exact h3 g hg

/-- C9, MTU segmentation: with `1 ≤ MTU ≤ 255`, no frame pending and an empty
outbound buffer, a single `Write` of `L ≥ 1` bytes `w` followed by the
acknowledgment of each frame in turn hands `ceil(L / MTU)` frames to the
transmit pump; the `j`-th (from 0) carries the bytes of `w` from `j * MTU` up to
`min((j + 1) * MTU, L)`; the payloads concatenated give `w`; each is a data
frame of between 1 and `MTU` bytes; and a `Write` of `3 * MTU` bytes gives
exactly 3 frames of `MTU` bytes each. -/
theorem mtu_segmentation (cf : Config) (s : State) (w : List Nat) (fuel : Nat)
    (hm1 : 1 ≤ cf.MTU) (hm2 : cf.MTU ≤ 255) (hw : 1 ≤ w.length)
    (htx : s.tx = none) (hbw : s.bw = []) (hfuel : w.length ≤ fuel) :
    ((step cf s (Event.write w true)).2.frames
        ++ ackEach cf fuel (step cf s (Event.write w true)).1).length
      = (w.length + cf.MTU - 1) / cf.MTU ∧
    ((step cf s (Event.write w true)).2.frames
        ++ ackEach cf fuel (step cf s (Event.write w true)).1).map (·.data)
      = (List.range ((w.length + cf.MTU - 1) / cf.MTU)).map
          (fun j => (w.drop (j * cf.MTU)).take cf.MTU) ∧
    (((step cf s (Event.write w true)).2.frames
        ++ ackEach cf fuel (step cf s (Event.write w true)).1).map (·.data)).flatten = w ∧
    (∀ g ∈ (step cf s (Event.write w true)).2.frames
        ++ ackEach cf fuel (step cf s (Event.write w true)).1,
      g.id ≠ 0 ∧ g.ack = 0 ∧ g.size = g.data.length ∧ 1 ≤ g.data.length ∧
        g.data.length ≤ cf.MTU) ∧
    (w.length = 3 * cf.MTU →
      ((step cf s (Event.write w true)).2.frames
          ++ ackEach cf fuel (step cf s (Event.write w true)).1).length = 3 ∧
      ∀ g ∈ (step cf s (Event.write w true)).2.frames
          ++ ackEach cf fuel (step cf s (Event.write w true)).1, g.data.length = cf.MTU) := by
  obtain ⟨h1, h2, h3⟩ := next_ackEach cf hm1 hm2 fuel { s with bw := s.bw ++ w } htx
    (by simp [hbw]; exact hfuel)
  simp only [hbw, List.nil_append] at h1 h2 h3
  have hstep : step cf s (Event.write w true)
      = ((next cf { s with bw := w } true).1, ⟨(next cf { s with bw := w } true).2, []⟩) := by
    simp [step, hbw]
  rw [hstep]
  simp only
  have hlen := congrArg List.length h1
  rw [List.length_map, List.length_map, List.length_range] at hlen
  refine ⟨hlen, h1, h2, h3, ?_⟩
  intro h3m
  have hN : (w.length + cf.MTU - 1) / cf.MTU = 3 :=
    Nat.div_eq_of_lt_le (by omega) (by omega)
  refine ⟨by rw [hlen, hN], ?_⟩
  intro g hg
  have hmem : g.data ∈ ((next cf { s with bw := w } true).2
      ++ ackEach cf fuel (next cf { s with bw := w } true).1).map (·.data) :=
    List.mem_map_of_mem _ hg
  rw [h1, hN] at hmem
  simp only [List.mem_map, List.mem_range] at hmem
  obtain ⟨j, hj, hjd⟩ := hmem
  rw [← hjd, List.length_take, List.length_drop]
  have : j * cf.MTU ≤ 2 * cf.MTU := Nat.mul_le_mul_right _ (by omega)
  omega

/-- Witness of C9: a `Write` of `[1, 2, 3, 4, 5]` with MTU 2 into the initial state. -/
theorem mtu_segmentation_witness :
    ((step ⟨2, 0⟩ State.init (Event.write [1, 2, 3, 4, 5] true)).2.frames
        ++ ackEach ⟨2, 0⟩ 5 (step ⟨2, 0⟩ State.init (Event.write [1, 2, 3, 4, 5] true)).1).map
          (·.data) = [[1, 2], [3, 4], [5]] :=
  (mtu_segmentation ⟨2, 0⟩ State.init [1, 2, 3, 4, 5] 5 (by decide) (by decide) (by decide)
    rfl rfl (by decide)).2.1

/-! ## Frames in flight -/

theorem Staged.eraseIdx {P Q : Frame → Prop} {l : List Frame} (h : Staged P Q l) (i : Nat) :
    Staged P Q (l.eraseIdx i) := by
  obtain ⟨s, t, rfl, hs, ht⟩ := h
  by_cases hi : i < s.length
  · exact ⟨s.eraseIdx i, t, List.eraseIdx_append_of_lt_length hi t,
      fun g hg => hs g (List.mem_of_mem_eraseIdx hg), ht⟩
  · exact ⟨s, t.eraseIdx (i - s.length), List.eraseIdx_append_of_length_le (by omega) t,
      hs, fun g hg => ht g (List.mem_of_mem_eraseIdx hg)⟩

theorem Staged.append {P Q : Frame → Prop} {l u : List Frame} (h : Staged P Q l)
    (hu : ∀ g ∈ u, Q g) : Staged P Q (l ++ u) := by
  obtain ⟨s, t, rfl, hs, ht⟩ := h
  refine ⟨s, t ++ u, List.append_assoc _ _ _, hs, ?_⟩
  intro g hg
  rcases List.mem_append.mp hg with h1 | h1
  · exact ht g h1
  · exact hu g h1

theorem Staged.of_left {P Q : Frame → Prop} {l : List Frame} (h : ∀ g ∈ l, P g) :
    Staged P Q l :=
  ⟨l, [], (List.append_nil l).symm, h, by simp⟩

theorem Staged.tail {P Q : Frame → Prop} {g : Frame} {l : List Frame}
    (h : Staged P Q (g :: l)) : Staged P Q l := by
  have := h.eraseIdx 0
  simpa using this

theorem Staged.head {P Q : Frame → Prop} {g : Frame} {l : List Frame}
    (h : Staged P Q (g :: l)) : P g ∨ (Q g ∧ ∀ x ∈ l, Q x) := by
  obtain ⟨s, t, he, hs, ht⟩ := h
  cases s with
  | nil =>
    right
    simp only [List.nil_append] at he
    subst he
    exact ⟨ht g (List.mem_cons_self _ _), fun x hx => ht x (List.mem_cons_of_mem _ hx)⟩
  | cons a s =>
    left
    simp only [List.cons_append, List.cons.injEq] at he
    rw [he.1]
    exact hs a (List.mem_cons_self _ _)

theorem HasId.unique {rx : Option Frame} {i j : Nat} (hi : HasId rx i) (hj : HasId rx j) :
    i = j := by
  obtain ⟨r, hr, rfl⟩ := hi
  obtain ⟨r', hr', rfl⟩ := hj
  rw [hr] at hr'
  cases hr'
  rfl

theorem mem_append_if {l : List Frame} {c : Bool} {f g : Frame}
    (h : g ∈ l ++ (if c then [f] else [])) : g ∈ l ∨ g = f := by
  rcases List.mem_append.mp h with h1 | h1
  · exact Or.inl h1
  · cases c
    · simp at h1
    · right; simpa using h1

/-! ## The sender's side preserves the relation -/

theorem Core.initially : Core none [] 1 none [] [] [] [] := by
  refine ⟨by simp, by simp, Or.inl ⟨rfl, rfl, by simp, by simp, ?_⟩⟩
  rintro ⟨r, hr, _⟩
  cases hr

/-- A `Write` of `p`: the bytes join the outbound buffer and the history. -/
theorem Core.write {tx bw sn rx D W ab ba} (p : List Nat)
    (h : Core tx bw sn rx D W ab ba) : Core tx (bw ++ p) sn rx D (W ++ p) ab ba := by
  obtain ⟨h1, h2, h | ⟨f, h⟩ | ⟨f, h⟩⟩ := h
  · obtain ⟨a, b, c, d, e⟩ := h
    exact ⟨h1, h2, Or.inl ⟨a, by rw [b, List.append_assoc], c, d, e⟩⟩
  · obtain ⟨a, b, c, d, e, k, l⟩ := h
    exact ⟨h1, h2, Or.inr (Or.inl ⟨f, a, b, c, by rw [d]; simp, e, k, l⟩)⟩
  · obtain ⟨a, b, c, d, e, k, l⟩ := h
    exact ⟨h1, h2, Or.inr (Or.inr ⟨f, a, b, c, by rw [d, List.append_assoc], e, k, l⟩)⟩

/-- The pending frame is handed to the transmit pump once more, or not. -/
theorem Core.resend {f bw sn rx D W ab ba} (c : Bool)
    (h : Core (some f) bw sn rx D W ab ba) :
    Core (some f) bw sn rx D W (ab ++ (if c then [f] else [])) ba := by
  obtain ⟨h1, h2, h | ⟨f', h⟩ | ⟨f', h⟩⟩ := h
  · exact absurd h.1 (by simp)
  · obtain ⟨a, b, c', d, e, k, l⟩ := h
    cases a
    refine ⟨?_, h2, Or.inr (Or.inl ⟨f, rfl, b, c', d, e, ?_, l⟩)⟩
    · intro g hg
      rcases mem_append_if hg with hg | hg
      · exact h1 g hg
      · rw [hg]; exact b
    · apply k.append
      intro g hg
      cases c
      · simp at hg
      · simpa using hg
  · obtain ⟨a, b, c', d, e, k, l⟩ := h
    cases a
    refine ⟨?_, h2, Or.inr (Or.inr ⟨f, rfl, b, c', d, e, ?_, l⟩)⟩
    · intro g hg
      rcases mem_append_if hg with hg | hg
      · exact h1 g hg
      · rw [hg]; exact b
    · intro g hg
      rcases mem_append_if hg with hg | hg
      · exact k g hg
      · rw [hg]

/-- The closure `next` run with no frame pending. -/
theorem Core.idle_next {bw sn rx D W ab ba} (cf : Config) (a : State) (c : Bool)
    (htx : a.tx = none) (hbw : a.bw = bw) (hsn : a.sn = sn)
    (h : Core none bw sn rx D W ab ba) :
    Core (next cf a c).1.tx (next cf a c).1.bw (next cf a c).1.sn rx D W
      (ab ++ (next cf a c).2) ba := by
  subst hbw; subst hsn
  by_cases hb : a.bw = []
  · rw [next_empty cf a c hb, htx]
    simpa using h
  · rw [next_frame cf a c htx hb]
    obtain ⟨h1, h2, h | ⟨f, h⟩ | ⟨f, h⟩⟩ := h
    · obtain ⟨_, hW, hab, hba, hn⟩ := h
      have hcore : Core (some ⟨(seqRecv a.sn).1, 0, min cf.MTU a.bw.length % 256,
          a.bw.take (min cf.MTU a.bw.length)⟩) (a.bw.drop (min cf.MTU a.bw.length))
          (seqRecv a.sn).2 rx D W ab ba := by
        refine ⟨h1, h2, Or.inr (Or.inl ⟨_, rfl, seqRecv_fst_ne_zero _, seqRecv_fst_ne_next _,
          ?_, hn, Staged.of_left hab, ?_⟩)⟩
        · rw [hW, List.append_assoc, List.take_append_drop]
        · intro g hg heq
          apply hn
          have := hba g hg
          rwa [heq] at this
      exact hcore.resend c
    · exact absurd h.1 (by simp)
    · exact absurd h.1 (by simp)

/-- A frame in flight is lost. -/
theorem Core.dropAB {tx bw sn rx D W ab ba} (i : Nat) (h : Core tx bw sn rx D W ab ba) :
    Core tx bw sn rx D W (ab.eraseIdx i) ba := by
  obtain ⟨h1, h2, h | ⟨f, h⟩ | ⟨f, h⟩⟩ := h
  · obtain ⟨a, b, c, d, e⟩ := h
    exact ⟨fun g hg => h1 g (List.mem_of_mem_eraseIdx hg), h2,
      Or.inl ⟨a, b, fun g hg => c g (List.mem_of_mem_eraseIdx hg), d, e⟩⟩
  · obtain ⟨a, b, c, d, e, k, l⟩ := h
    exact ⟨fun g hg => h1 g (List.mem_of_mem_eraseIdx hg), h2,
      Or.inr (Or.inl ⟨f, a, b, c, d, e, k.eraseIdx i, l⟩)⟩
  · obtain ⟨a, b, c, d, e, k, l⟩ := h
    exact ⟨fun g hg => h1 g (List.mem_of_mem_eraseIdx hg), h2,
      Or.inr (Or.inr ⟨f, a, b, c, d, e, fun g hg => k g (List.mem_of_mem_eraseIdx hg), l⟩)⟩

/-- An acknowledgment in flight is lost. -/
theorem Core.dropBA {tx bw sn rx D W ab ba} (i : Nat) (h : Core tx bw sn rx D W ab ba) :
    Core tx bw sn rx D W ab (ba.eraseIdx i) := by
  obtain ⟨h1, h2, h | ⟨f, h⟩ | ⟨f, h⟩⟩ := h
  · obtain ⟨a, b, c, d, e⟩ := h
    exact ⟨h1, fun g hg => h2 g (List.mem_of_mem_eraseIdx hg),
      Or.inl ⟨a, b, c, fun g hg => d g (List.mem_of_mem_eraseIdx hg), e⟩⟩
  · obtain ⟨a, b, c, d, e, k, l⟩ := h
    exact ⟨h1, fun g hg => h2 g (List.mem_of_mem_eraseIdx hg),
      Or.inr (Or.inl ⟨f, a, b, c, d, e, k, fun g hg => l g (List.mem_of_mem_eraseIdx hg)⟩)⟩
  · obtain ⟨a, b, c, d, e, k, l⟩ := h
    exact ⟨h1, fun g hg => h2 g (List.mem_of_mem_eraseIdx hg),
      Or.inr (Or.inr ⟨f, a, b, c, d, e, k, l.eraseIdx i⟩)⟩

/-- The acknowledgment at the head of the channel matches the pending frame:
the frame is cleared. -/
theorem Core.acked {f bw sn rx D W ab ba} {g : Frame}
    (h : Core (some f) bw sn rx D W ab (g :: ba)) (hg : f.id = g.ack) :
    Core none bw sn rx D W ab ba := by
  obtain ⟨h1, h2, h | ⟨f', h⟩ | ⟨f', h⟩⟩ := h
  · exact absurd h.1 (by simp)
  · obtain ⟨a, _, _, _, _, _, l⟩ := h
    cases a
    exact absurd hg.symm (l g (List.mem_cons_self _ _))
  · obtain ⟨a, b, c, d, e, k, l⟩ := h
    cases a
    rcases l.head with hh | ⟨_, hall⟩
    · exact absurd hg.symm hh
    · refine ⟨h1, fun x hx => h2 x (List.mem_cons_of_mem _ hx), Or.inl ⟨rfl, d, ?_, ?_, ?_⟩⟩
      · intro x hx
        rw [k x hx]; exact e
      · intro x hx
        rw [hall x hx]; exact e
      · intro hn
        exact c (hn.unique e)

/-- The closure `next` run in any phase. -/
theorem Core.advance {rx D W ab ba} (cf : Config) (a : State) (c : Bool)
    (h : Core a.tx a.bw a.sn rx D W ab ba) :
    Core (next cf a c).1.tx (next cf a c).1.bw (next cf a c).1.sn rx D W
      (ab ++ (next cf a c).2) ba := by
  by_cases htx : a.tx = none
  · rw [htx] at h
    exact Core.idle_next cf a c htx rfl rfl h
  · rw [next_pending cf a c htx]
    simpa using h

/-! ## The receiver's side preserves the relation -/

theorem step_data_dup (cf : Config) (b : State) (g : Frame) (c : Bool)
    (hid : g.id ≠ 0) (h : HasId b.rx g.id) :
    step cf b (Event.frame g c) = (b, ⟨[⟨0, g.id, 0, []⟩], []⟩) := by
  obtain ⟨r, hr, hrid⟩ := h
  simp [step, hid, hr, hrid]

theorem step_data_new (cf : Config) (b : State) (g : Frame) (c : Bool)
    (hid : g.id ≠ 0) (h : ¬ HasId b.rx g.id) :
    step cf b (Event.frame g c)
      = ({ b with rx := some g, br := b.br ++ g.data }, ⟨[⟨0, g.id, 0, []⟩], []⟩) := by
  simp only [step, if_neg hid]
  cases hr : b.rx with
  | none => rfl
  | some r =>
    have : r.id ≠ g.id := fun he => h ⟨r, hr, he⟩
    simp only [ne_eq, this, not_false_eq_true, if_true]

/-- The data frame at the head of the channel reaches the receiver: a frame
with the id of the last accepted one changes nothing, any other is accepted;
either way its acknowledgment is sent. -/
theorem Core.deliver {tx bw sn rx D W ab ba} {g : Frame}
    (h : Core tx bw sn rx D W (g :: ab) ba) :
    (HasId rx g.id → Core tx bw sn rx D W ab (ba ++ [⟨0, g.id, 0, []⟩])) ∧
    (¬ HasId rx g.id →
      Core tx bw sn (some g) (D ++ g.data) W ab (ba ++ [⟨0, g.id, 0, []⟩])) := by
  obtain ⟨h1, h2, hcase⟩ := h
  have h1' : ∀ x ∈ ab, x.id ≠ 0 := fun x hx => h1 x (List.mem_cons_of_mem _ hx)
  have h2' : ∀ x ∈ ba ++ [(⟨0, g.id, 0, []⟩ : Frame)], x.id = 0 := by
    intro x hx
    rcases List.mem_append.mp hx with hx | hx
    · exact h2 x hx
    · simp only [List.mem_singleton] at hx
      rw [hx]
  rcases hcase with h | ⟨f, h⟩ | ⟨f, h⟩
  · obtain ⟨a, b, c, d, e⟩ := h
    have hg : HasId rx g.id := c g (List.mem_cons_self _ _)
    refine ⟨fun _ => ⟨h1', h2', Or.inl ⟨a, b, fun x hx => c x (List.mem_cons_of_mem _ hx),
      ?_, e⟩⟩, fun hn => absurd hg hn⟩
    intro x hx
    rcases List.mem_append.mp hx with hx | hx
    · exact d x hx
    · simp only [List.mem_singleton] at hx
      rw [hx]; exact hg
  · obtain ⟨a, b, c, d, e, k, l⟩ := h
    constructor
    · intro hg
      refine ⟨h1', h2', Or.inr (Or.inl ⟨f, a, b, c, d, e, k.tail, ?_⟩)⟩
      intro x hx
      rcases List.mem_append.mp hx with hx | hx
      · exact l x hx
      · simp only [List.mem_singleton] at hx
        rw [hx]
        intro heq
        apply e
        have heq' : g.id = f.id := heq
        rwa [heq'] at hg
    · intro hn
      rcases k.head with hh | ⟨hgf, hall⟩
      · exact absurd hh hn
      · subst hgf
        refine ⟨h1', h2', Or.inr (Or.inr ⟨g, a, b, c, by rw [d], ⟨g, rfl, rfl⟩, ?_, ?_⟩)⟩
        · intro x hx
          rw [hall x hx]
        · exact (Staged.of_left l).append (by
            intro x hx
            simp only [List.mem_singleton] at hx
            rw [hx])
  · obtain ⟨a, b, c, d, e, k, l⟩ := h
    have hg : HasId rx g.id := by
      rw [k g (List.mem_cons_self _ _)]; exact e
    refine ⟨fun _ => ⟨h1', h2', Or.inr (Or.inr ⟨f, a, b, c, d, e,
      fun x hx => k x (List.mem_cons_of_mem _ hx), ?_⟩)⟩, fun hn => absurd hg hn⟩
    apply l.append
    intro x hx
    simp only [List.mem_singleton] at hx
    rw [hx]
    exact k g (List.mem_cons_self _ _)

/-! ## The invariant -/

theorem Inv.at_start : Inv Sys.init :=
  ⟨rfl, rfl, Core.initially⟩

theorem Inv.step_holds (cfA cfB : Config) (y : Sys) (e : SysEvent) (h : Inv y) :
    Inv (Sys.step cfA cfB y e) := by
  obtain ⟨hbtx, hbbw, hc⟩ := h
  cases e with
  | writeA p sent =>
    refine ⟨hbtx, hbbw, ?_⟩
    have := Core.advance cfA { y.a with bw := y.a.bw ++ p } sent (hc.write p)
    simpa [Sys.step, FrameConn.step] using this
  | retryA sent resent =>
    refine ⟨hbtx, hbbw, ?_⟩
    have hadv := Core.advance cfA y.a sent hc
    simp only [Sys.step, FrameConn.step]
    cases htx : (next cfA y.a sent).1.tx with
    | none =>
      simp only
      exact hadv
    | some t =>
      simp only
      rw [htx] at hadv
      have := hadv.resend resent
      rw [List.append_assoc] at this
      rw [← htx] at this
      exact this
  | retryB sent resent =>
    have hn : next cfB y.b sent = (y.b, []) := next_empty cfB y.b sent hbbw
    simp only [Sys.step, FrameConn.step, hn, hbtx, List.append_nil]
    exact ⟨hbtx, hbbw, hc⟩
  | deliverAB sent =>
    simp only [Sys.step]
    cases hab : y.ab with
    | nil => simp only; exact ⟨hbtx, hbbw, hc⟩
    | cons g rest =>
      simp only
      rw [hab] at hc
      have hid : g.id ≠ 0 := hc.1 g (List.mem_cons_self _ _)
      by_cases hg : HasId y.b.rx g.id
      · rw [step_data_dup cfB y.b g sent hid hg]
        exact ⟨hbtx, hbbw, hc.deliver.1 hg⟩
      · rw [step_data_new cfB y.b g sent hid hg]
        refine ⟨hbtx, hbbw, ?_⟩
        have := hc.deliver.2 hg
        simp only [← List.append_assoc]
        exact this
  | deliverBA sent =>
    simp only [Sys.step]
    cases hba : y.ba with
    | nil => simp only; exact ⟨hbtx, hbbw, hc⟩
    | cons g rest =>
      simp only
      rw [hba] at hc
      have hid : g.id = 0 := hc.2.1 g (List.mem_cons_self _ _)
      have hdrop : Core y.a.tx y.a.bw y.a.sn y.b.rx (y.got ++ y.b.br) y.written y.ab rest := by
        have := hc.dropBA 0
        simpa using this
      refine ⟨hbtx, hbbw, ?_⟩
      simp only [FrameConn.step, hid, if_true]
      cases htx : y.a.tx with
      | none =>
        simp only [List.append_nil]
        exact hdrop
      | some t =>
        simp only
        by_cases hack : t.id = g.ack
        · rw [if_pos hack]
          simp only
          rw [htx] at hc
          have hclear := hc.acked hack
          exact Core.idle_next cfA { y.a with tx := none } sent rfl rfl rfl hclear
        · rw [if_neg hack]
          simp only [List.append_nil]
          exact hdrop
  | dropAB i => exact ⟨hbtx, hbbw, hc.dropAB i⟩
  | dropBA i => exact ⟨hbtx, hbbw, hc.dropBA i⟩
  | readB n =>
    refine ⟨hbtx, hbbw, ?_⟩
    simp only [Sys.step, FrameConn.step]
    rw [List.append_assoc, List.take_append_drop]
    exact hc

theorem Inv.run_holds (cfA cfB : Config) (es : List SysEvent) :
    ∀ y, Inv y → Inv (Sys.run cfA cfB y es) := by
  induction es with
  | nil => intro y h; exact h
  | cons e es ih => intro y h; exact ih _ (Inv.step_holds cfA cfB y e h)

theorem Inv.delivered {y : Sys} (h : Inv y) : (y.got ++ y.b.br) <+: y.written := by
  obtain ⟨_, _, _, _, h | ⟨f, h⟩ | ⟨f, h⟩⟩ := h
  · exact ⟨y.a.bw, h.2.1.symm⟩
  · exact ⟨f.data ++ y.a.bw, by rw [h.2.2.2.1]; simp⟩
  · exact ⟨y.a.bw, h.2.2.2.1.symm⟩

/-- C1, exactly-once in-order delivery: after any finite sequence of events
from the initial states (writes at `a`, retry ticks at either end, deliveries,
losses, reads at `b`), whatever the two MTUs, the bytes returned so far by the
reads at `b` followed by the inbound buffer of `b` are a prefix of the bytes
written so far at `a`. -/
theorem exactly_once_in_order (cfA cfB : Config) (es : List SysEvent) :
    ((Sys.run cfA cfB Sys.init es).got ++ (Sys.run cfA cfB Sys.init es).b.br)
      <+: (Sys.run cfA cfB Sys.init es).written :=
  (Inv.run_holds cfA cfB es Sys.init Inv.at_start).delivered

/-- A run of the two-endpoint system with MTU 2 in which the first frame is
sent twice, one acknowledgment is lost, and all three bytes written arrive. -/
theorem delivery_example :
    (Sys.run ⟨2, 0⟩ ⟨2, 0⟩ Sys.init
      [SysEvent.writeA [1, 2, 3] true, SysEvent.retryA true true, SysEvent.deliverAB true,
       SysEvent.deliverAB true, SysEvent.dropBA 0, SysEvent.deliverBA true,
       SysEvent.readB 1, SysEvent.deliverAB true, SysEvent.deliverBA true,
       SysEvent.readB 10]).got = [1, 2, 3] := by
  decide

/-! ## Acceptance, acknowledgments, retry ticks -/

theorem next_keeps_inbound (cf : Config) (s : State) (c : Bool) :
    (next cf s c).1.br = s.br ∧ (next cf s c).1.rx = s.rx := by
  unfold next
  split_ifs <;> exact ⟨rfl, rfl⟩

theorem next_frames_data (cf : Config) (s : State) (c : Bool) :
    ∀ g ∈ (next cf s c).2, g.id ≠ 0 := by
  by_cases htx : s.tx = none
  · by_cases hbw : s.bw = []
    · rw [next_empty cf s c hbw]; simp
    · rw [next_frame cf s c htx hbw]
      intro g hg
      cases c
      · simp at hg
      · simp only [if_true, List.mem_singleton] at hg
        rw [hg]
        exact seqRecv_fst_ne_zero _
  · rw [next_pending cf s c htx]; simp

/-- C11, a data frame with a new id is accepted: when no frame has been
accepted yet or the last accepted frame has another id, processing the data
frame `f` appends `f.data` to the inbound buffer, records `f` as the last
accepted frame, changes nothing else, and hands the acknowledgment
`(0, f.id, 0, no data)` to the transmit pump; in particular a frame with id 1
is accepted when the last accepted frame has id 255. -/
theorem data_frame_accepted (cf : Config) (s : State) (f : Frame) (c : Bool)
    (hid : f.id ≠ 0) (hrx : ∀ r, s.rx = some r → r.id ≠ f.id) :
    step cf s (Event.frame f c)
        = ({ s with rx := some f, br := s.br ++ f.data }, ⟨[⟨0, f.id, 0, []⟩], []⟩) ∧
    (∀ r, s.rx = some r → r.id = 255 → f.id = 1 →
      (step cf s (Event.frame f c)).1.br = s.br ++ f.data ∧
      (step cf s (Event.frame f c)).1.rx = some f) := by
  have h : step cf s (Event.frame f c)
      = ({ s with rx := some f, br := s.br ++ f.data }, ⟨[⟨0, f.id, 0, []⟩], []⟩) :=
    step_data_new cf s f c hid (fun ⟨r, hr, he⟩ => hrx r hr he)
  refine ⟨h, ?_⟩
  intro r _ _ _
  rw [h]
  exact ⟨rfl, rfl⟩

/-- Witness of C11: the frame `(1, 0, 1, [7])` arriving after the frame
`(255, 0, 1, [6])` was accepted. -/
theorem data_frame_accepted_witness :
    step defaultConfig ⟨[6], [], some ⟨255, 0, 1, [6]⟩, none, 1⟩ (Event.frame ⟨1, 0, 1, [7]⟩ true)
        = ({ (⟨[6], [], some ⟨255, 0, 1, [6]⟩, none, 1⟩ : State) with
              rx := some ⟨1, 0, 1, [7]⟩, br := [6] ++ [7] }, ⟨[⟨0, 1, 0, []⟩], []⟩) ∧
    (∀ r, (⟨[6], [], some ⟨255, 0, 1, [6]⟩, none, 1⟩ : State).rx = some r → r.id = 255 →
      (⟨1, 0, 1, [7]⟩ : Frame).id = 1 →
      (step defaultConfig ⟨[6], [], some ⟨255, 0, 1, [6]⟩, none, 1⟩
          (Event.frame ⟨1, 0, 1, [7]⟩ true)).1.br = [6] ++ [7] ∧
      (step defaultConfig ⟨[6], [], some ⟨255, 0, 1, [6]⟩, none, 1⟩
          (Event.frame ⟨1, 0, 1, [7]⟩ true)).1.rx = some ⟨1, 0, 1, [7]⟩) :=
  data_frame_accepted defaultConfig ⟨[6], [], some ⟨255, 0, 1, [6]⟩, none, 1⟩ ⟨1, 0, 1, [7]⟩
    true (by decide) (by intro r h; cases h; decide)

/-- C12, `Write` queues everything and never fails: in every state `Write(p)`
returns `len(p)` and no error, whether or not a frame is pending; the state it
leaves is that of `next` run once on the state with `p` appended to the
outbound buffer; the inbound buffer and the last accepted frame are unchanged. -/
theorem write_queues_all (cf : Config) (s : State) (p : List Nat) (c : Bool) :
    (ConnWrite cf s p c).1 = (p.length, none) ∧
    (ConnWrite cf s p c).2.1 = (next cf { s with bw := s.bw ++ p } c).1 ∧
    ((ConnWrite cf s p c).2.1, (⟨(ConnWrite cf s p c).2.2, []⟩ : Output))
      = step cf s (Event.write p c) ∧
    (ConnWrite cf s p c).2.1.br = s.br ∧
    (ConnWrite cf s p c).2.1.rx = s.rx := by
  have h := next_keeps_inbound cf { s with bw := s.bw ++ p } c
  exact ⟨rfl, rfl, rfl, h.1, h.2⟩

/-- C17, acknowledgment handling: for an inbound frame `a` with id 0, if a
frame is pending and its id equals `a.ack`, the state afterwards is that of
`next` run once on the state with the pending frame cleared; otherwise the
state is unchanged and nothing is handed to the pump.  In both cases the
inbound buffer and the last accepted frame are unchanged and every frame handed
to the pump is a data frame, so no acknowledgment is sent in response. -/
theorem ack_handling (cf : Config) (s : State) (a : Frame) (c : Bool) (hid : a.id = 0) :
    (∀ t, s.tx = some t → t.id = a.ack →
      step cf s (Event.frame a c)
        = ((next cf { s with tx := none } c).1, ⟨(next cf { s with tx := none } c).2, []⟩)) ∧
    ((∀ t, s.tx = some t → t.id ≠ a.ack) → step cf s (Event.frame a c) = (s, ⟨[], []⟩)) ∧
    (step cf s (Event.frame a c)).1.br = s.br ∧
    (step cf s (Event.frame a c)).1.rx = s.rx ∧
    ∀ g ∈ (step cf s (Event.frame a c)).2.frames, g.id ≠ 0 := by
  cases htx : s.tx with
  | none =>
    have h : step cf s (Event.frame a c) = (s, ⟨[], []⟩) := by simp [step, hid, htx]
    refine ⟨fun t ht => (by cases ht), fun _ => h, ?_, ?_, ?_⟩ <;> rw [h]
    · simp
  | some t =>
    by_cases hack : t.id = a.ack
    · have h : step cf s (Event.frame a c)
          = ((next cf { s with tx := none } c).1, ⟨(next cf { s with tx := none } c).2, []⟩) := by
        simp [step, hid, htx, hack]
      have hk := next_keeps_inbound cf { s with tx := none } c
      refine ⟨fun _ _ _ => h, fun hne => absurd hack (hne t rfl), ?_, ?_, ?_⟩
      · rw [h]; exact hk.1
      · rw [h]; exact hk.2
      · rw [h]; exact next_frames_data cf _ c
    · have h : step cf s (Event.frame a c) = (s, ⟨[], []⟩) := by simp [step, hid, htx, hack]
      refine ⟨fun t' ht' he => ?_, fun _ => h, ?_, ?_, ?_⟩
      · cases ht'; exact absurd he hack
      · rw [h]
      · rw [h]
      · rw [h]; simp

/-- Witness of C17: the acknowledgment of the pending frame `(1, 0, 2, [1, 2])`
with one more byte waiting in the outbound buffer. -/
theorem ack_handling_witness :
    step ⟨2, 0⟩ ⟨[], [3], none, some ⟨1, 0, 2, [1, 2]⟩, 2⟩ (Event.frame ⟨0, 1, 0, []⟩ true)
      = ((next ⟨2, 0⟩ { (⟨[], [3], none, some ⟨1, 0, 2, [1, 2]⟩, 2⟩ : State) with tx := none }
            true).1,
         ⟨(next ⟨2, 0⟩ { (⟨[], [3], none, some ⟨1, 0, 2, [1, 2]⟩, 2⟩ : State) with tx := none }
            true).2, []⟩) :=
  (ack_handling ⟨2, 0⟩ ⟨[], [3], none, some ⟨1, 0, 2, [1, 2]⟩, 2⟩ ⟨0, 1, 0, []⟩ true rfl).1
    ⟨1, 0, 2, [1, 2]⟩ rfl rfl

/-- C18, a retry tick retransmits the pending frame unchanged: with the frame
`f` pending, a retry tick leaves the whole state unchanged and hands to the
pump exactly `f`, once, when the pump is ready, and nothing when it is not. -/
theorem retry_resends_pending (cf : Config) (s : State) (f : Frame) (c1 c2 : Bool)
    (h : s.tx = some f) :
    step cf s (Event.retry c1 c2) = (s, ⟨if c2 then [f] else [], []⟩) ∧
    step cf s (Event.retry c1 true) = (s, ⟨[f], []⟩) ∧
    step cf s (Event.retry c1 false) = (s, ⟨[], []⟩) := by
  have hn : ∀ c, next cf s c = (s, []) := fun c => next_pending cf s c (by rw [h]; simp)
  refine ⟨?_, ?_, ?_⟩ <;> simp [step, hn, h]

/-- Witness of C18: a retry tick with the frame `(1, 0, 2, [1, 2])` pending. -/
theorem retry_resends_pending_witness :
    step ⟨2, 0⟩ ⟨[], [3], none, some ⟨1, 0, 2, [1, 2]⟩, 2⟩ (Event.retry true true)
      = (⟨[], [3], none, some ⟨1, 0, 2, [1, 2]⟩, 2⟩, ⟨if true then [⟨1, 0, 2, [1, 2]⟩] else [], []⟩) ∧
    step ⟨2, 0⟩ ⟨[], [3], none, some ⟨1, 0, 2, [1, 2]⟩, 2⟩ (Event.retry true true)
      = (⟨[], [3], none, some ⟨1, 0, 2, [1, 2]⟩, 2⟩, ⟨[⟨1, 0, 2, [1, 2]⟩], []⟩) ∧
    step ⟨2, 0⟩ ⟨[], [3], none, some ⟨1, 0, 2, [1, 2]⟩, 2⟩ (Event.retry true false)
      = (⟨[], [3], none, some ⟨1, 0, 2, [1, 2]⟩, 2⟩, ⟨[], []⟩) :=
  retry_resends_pending ⟨2, 0⟩ ⟨[], [3], none, some ⟨1, 0, 2, [1, 2]⟩, 2⟩ ⟨1, 0, 2, [1, 2]⟩
    true true rfl

/-! ## `Read` -/

theorem step_read_bufRead (cf : Config) (s : State) (k : Nat) :
    step cf s (Event.read k)
      = ({ s with br := (bufRead s.br k).2.2.2 }, ⟨[], (bufRead s.br k).2.2.1⟩) := by
  unfold bufRead
  by_cases hb : s.br.length = 0
  · have : s.br = [] := List.length_eq_zero.mp hb
    by_cases hk : k = 0 <;> simp [step, this, hk]
  · simp [step, hb]

theorem ConnRead_some (cf : Config) (s : State) (k : Nat) (gaps : List (List Event))
    (hb : 1 ≤ s.br.length) (hk : 1 ≤ k) :
    ConnRead cf s k gaps
      = (some (min k s.br.length, none, s.br.take (min k s.br.length)),
         { s with br := s.br.drop (min k s.br.length) }) := by
  have hne : ¬ s.br.length = 0 := by omega
  have hpos : 0 < min k s.br.length := by
    rw [Nat.lt_min]; omega
  cases gaps <;> simp [ConnRead, bufRead, hne, hpos]

theorem ConnRead_pos (cf : Config) (k : Nat) (gaps : List (List Event)) :
    ∀ (s : State) (res : Nat × Option Err × List Nat) (s' : State),
      ConnRead cf s k gaps = (some res, s') → 1 ≤ res.1 ∧ res.2.1 = none := by
  induction gaps with
  | nil =>
    intro s res s' h
    simp only [ConnRead] at h
    split_ifs at h with hpos
    · simp only [Prod.mk.injEq, Option.some.injEq] at h
      rw [← h.1]
      refine ⟨hpos, ?_⟩
      unfold bufRead at hpos ⊢
      split_ifs at hpos ⊢ <;> simp_all
    · simp at h
  | cons g gs ih =>
    intro s res s' h
    simp only [ConnRead] at h
    split_ifs at h with hpos
    · simp only [Prod.mk.injEq, Option.some.injEq] at h
      rw [← h.1]
      refine ⟨hpos, ?_⟩
      unfold bufRead at hpos ⊢
      split_ifs at hpos ⊢ <;> simp_all
    · exact ih _ res s' h

theorem run_nil (cf : Config) (s : State) : run cf s [] = (s, ⟨[], []⟩) := rfl

theorem ConnRead_empty (cf : Config) (s : State) (k : Nat) (hb : s.br = []) :
    ∀ m, ConnRead cf s k (List.replicate m []) = (none, s) := by
  have hr : (bufRead s.br k).1 = 0 ∧ (bufRead s.br k).2.2.2 = s.br := by
    unfold bufRead
    by_cases hk : k = 0 <;> simp [hb, hk]
  have hs : ({ s with br := (bufRead s.br k).2.2.2 } : State) = s := by
    rw [hr.2]
  intro m
  induction m with
  | zero => simp [ConnRead, hr.1, hs]
  | succ m ih =>
    simp only [List.replicate_succ, ConnRead, hr.1, Nat.lt_irrefl, if_false, hs, run_nil]
    exact ih

theorem ConnRead_retry (cf : Config) (s : State) (k : Nat) (g : List Event)
    (gs : List (List Event)) (h : s.br = [] ∨ k = 0) :
    ConnRead cf s k (g :: gs) = ConnRead cf (run cf s g).1 k gs := by
  have hr : (bufRead s.br k).1 = 0 ∧ (bufRead s.br k).2.2.2 = s.br := by
    unfold bufRead
    rcases h with h | h
    · by_cases hk : k = 0 <;> simp [h, hk]
    · by_cases hb : s.br.length = 0 <;> simp [h, hb]
  have hs : ({ s with br := (bufRead s.br k).2.2.2 } : State) = s := by
    rw [hr.2]
  simp only [ConnRead, hr.1, Nat.lt_irrefl, if_false, hs]

/-- C13, `Read` drains the inbound buffer in order and never returns zero
bytes: with `b ≥ 1` bytes in the inbound buffer and a caller buffer of `k ≥ 1`
bytes, `Read` returns on its first pass with `n = min(k, b)`, no error, the
first `n` bytes of the inbound buffer, and leaves the inbound buffer without
them; whatever the events between its passes, when it returns the count is at
least 1 and the error is nil; on an empty inbound buffer that stays empty it
has not returned after any number of passes; a pass that finds the inbound
buffer empty is followed, after the events `g` the loop processes meanwhile,
by another pass on the state those events leave; so when those events put
`b' ≥ 1` bytes in the inbound buffer, that next pass returns `min(j, b')` of
them, in order. -/
theorem read_drains_in_order (cf : Config) (s : State) (k : Nat)
    (gaps : List (List Event)) (hb : 1 ≤ s.br.length) (hk : 1 ≤ k) :
    ConnRead cf s k gaps
      = (some (min k s.br.length, none, s.br.take (min k s.br.length)),
         { s with br := s.br.drop (min k s.br.length) }) ∧
    (step cf s (Event.read k)).1 = { s with br := s.br.drop (min k s.br.length) } ∧
    (∀ (t : State) (j : Nat) (gs : List (List Event)) (res : Nat × Option Err × List Nat)
        (t' : State), ConnRead cf t j gs = (some res, t') → 1 ≤ res.1 ∧ res.2.1 = none) ∧
    (∀ (t : State) (j m : Nat), t.br = [] →
        ConnRead cf t j (List.replicate m []) = (none, t)) ∧
    (∀ (t : State) (j : Nat) (g : List Event) (gs : List (List Event)), t.br = [] →
        ConnRead cf t j (g :: gs) = ConnRead cf (run cf t g).1 j gs) ∧
    (∀ (t : State) (j : Nat) (g : List Event) (gs : List (List Event)), t.br = [] →
        1 ≤ j → 1 ≤ (run cf t g).1.br.length →
        ConnRead cf t j (g :: gs)
          = (some (min j (run cf t g).1.br.length, none,
                (run cf t g).1.br.take (min j (run cf t g).1.br.length)),
             { (run cf t g).1 with
                br := (run cf t g).1.br.drop (min j (run cf t g).1.br.length) })) :=
  ⟨ConnRead_some cf s k gaps hb hk, by simp [step],
    fun t j gs res t' h => ConnRead_pos cf j gs t res t' h,
    fun t j m h => ConnRead_empty cf t j h m,
    fun t j g gs h => ConnRead_retry cf t j g gs (Or.inl h),
    fun t j g gs h hj hb' => by
      rw [ConnRead_retry cf t j g gs (Or.inl h)]
      exact ConnRead_some cf _ j gs hb' hj⟩

/-- Witness of C13: a `Read` into 2 bytes with `[1, 2, 3]` in the inbound
buffer; and a `Read` into 2 bytes on an empty inbound buffer, during whose
sleep the data frame `(1, 0, 2, [8, 9])` arrives. -/
theorem read_drains_in_order_witness :
    ConnRead ⟨2, 0⟩ ⟨[1, 2, 3], [], none, none, 1⟩ 2 []
      = (some (2, none, [1, 2]), ⟨[3], [], none, none, 1⟩) ∧
    ConnRead ⟨2, 0⟩ ⟨[], [], none, none, 1⟩ 2 [[Event.frame ⟨1, 0, 2, [8, 9]⟩ true]]
      = (some (2, none, [8, 9]), ⟨[], [], some ⟨1, 0, 2, [8, 9]⟩, none, 1⟩) :=
  ⟨(read_drains_in_order ⟨2, 0⟩ ⟨[1, 2, 3], [], none, none, 1⟩ 2 [] (by decide) (by decide)).1,
   (read_drains_in_order ⟨2, 0⟩ ⟨[1, 2, 3], [], none, none, 1⟩ 2 [] (by decide)
      (by decide)).2.2.2.2.2 ⟨[], [], none, none, 1⟩ 2 [Event.frame ⟨1, 0, 2, [8, 9]⟩ true] []
      rfl (by decide) (by decide)⟩

/-! ## Well-formed output -/

theorem next_wf (cf : Config) (s : State) (c : Bool) (hm1 : 1 ≤ cf.MTU) (hm2 : cf.MTU ≤ 255)
    (h : ∀ t, s.tx = some t → DataWF cf t) :
    (∀ t, (next cf s c).1.tx = some t → DataWF cf t) ∧ ∀ g ∈ (next cf s c).2, DataWF cf g := by
  by_cases htx : s.tx = none
  · by_cases hbw : s.bw = []
    · rw [next_empty cf s c hbw]; exact ⟨h, by simp⟩
    · rw [next_frame cf s c htx hbw]
      have hL : 1 ≤ s.bw.length := List.length_pos.mpr hbw
      have hwf : DataWF cf ⟨(seqRecv s.sn).1, 0, min cf.MTU s.bw.length % 256,
          s.bw.take (min cf.MTU s.bw.length)⟩ := by
        refine ⟨seqRecv_fst_ne_zero _, rfl, ?_, ?_, ?_⟩ <;>
          simp only [List.length_take] <;> omega
      refine ⟨?_, ?_⟩
      · intro t ht
        simp only [Option.some.injEq] at ht
        rw [← ht]; exact hwf
      · intro g hg
        cases c
        · simp at hg
        · simp only [if_true, List.mem_singleton] at hg
          rw [hg]; exact hwf
  · rw [next_pending cf s c htx]; exact ⟨h, by simp⟩

theorem step_wf (cf : Config) (s : State) (e : Event) (hm1 : 1 ≤ cf.MTU) (hm2 : cf.MTU ≤ 255)
    (h : ∀ t, s.tx = some t → DataWF cf t) :
    (∀ t, (step cf s e).1.tx = some t → DataWF cf t) ∧
    ∀ g ∈ (step cf s e).2.frames, DataWF cf g ∨ AckWF g := by
  cases e with
  | read n => exact ⟨by simpa [step] using h, by simp [step]⟩
  | write p c =>
    have := next_wf cf { s with bw := s.bw ++ p } c hm1 hm2 h
    exact ⟨this.1, fun g hg => Or.inl (this.2 g hg)⟩
  | frame f c =>
    by_cases hid : f.id = 0
    · cases htx : s.tx with
      | none =>
        have hs : step cf s (Event.frame f c) = (s, ⟨[], []⟩) := by simp [step, hid, htx]
        rw [hs]; exact ⟨h, by simp⟩
      | some t =>
        by_cases hack : t.id = f.ack
        · have hs : step cf s (Event.frame f c)
              = ((next cf { s with tx := none } c).1,
                 ⟨(next cf { s with tx := none } c).2, []⟩) := by
            simp [step, hid, htx, hack]
          have := next_wf cf { s with tx := none } c hm1 hm2 (fun t ht => by cases ht)
          rw [hs]
          exact ⟨this.1, fun g hg => Or.inl (this.2 g hg)⟩
        · have hs : step cf s (Event.frame f c) = (s, ⟨[], []⟩) := by
            simp [step, hid, htx, hack]
          rw [hs]; exact ⟨h, by simp⟩
    · have hout : (step cf s (Event.frame f c)).2.frames = [⟨0, f.id, 0, []⟩] := by
        simp [step, hid]
      have htx : (step cf s (Event.frame f c)).1.tx = s.tx := by
        simp only [step, if_neg hid]
        cases s.rx with
        | none => rfl
        | some r => dsimp only; split_ifs <;> rfl
      rw [hout, htx]
      refine ⟨h, ?_⟩
      intro g hg
      simp only [List.mem_singleton] at hg
      rw [hg]
      exact Or.inr ⟨rfl, hid, rfl, rfl⟩
  | retry c1 c2 =>
    have hn := next_wf cf s c1 hm1 hm2 h
    simp only [step]
    cases htx : (next cf s c1).1.tx with
    | none =>
      simp only
      refine ⟨fun t ht => ?_, fun g hg => Or.inl (hn.2 g hg)⟩
      rw [htx] at ht; cases ht
    | some t =>
      simp only
      refine ⟨fun t' ht' => hn.1 t' ht', ?_⟩
      intro g hg
      rcases mem_append_if hg with hg | hg
      · exact Or.inl (hn.2 g hg)
      · rw [hg]; exact Or.inl (hn.1 t htx)

theorem run_wf (cf : Config) (hm1 : 1 ≤ cf.MTU) (hm2 : cf.MTU ≤ 255) (es : List Event) :
    ∀ s, (∀ t, s.tx = some t → DataWF cf t) →
      ∀ g ∈ (run cf s es).2.frames, DataWF cf g ∨ AckWF g := by
  induction es with
  | nil => intro s _ g hg; simp [run] at hg
  | cons e es ih =>
    intro s h g hg
    have hs := step_wf cf s e hm1 hm2 h
    simp only [run, List.mem_append] at hg
    rcases hg with hg | hg
    · exact hs.2 g hg
    · exact ih _ hs.1 g hg

/-- C15, every frame the state machine emits is well formed: with
`1 ≤ MTU ≤ 255`, every frame handed to the transmit pump in any sequence of
events from the initial state is either a data frame (id not 0, ack 0, size
the length of its data, between 1 and MTU) or an acknowledgment (id 0, ack not
0, size 0, no data). -/
theorem emitted_frames_wf (cf : Config) (es : List Event)
    (hm1 : 1 ≤ cf.MTU) (hm2 : cf.MTU ≤ 255) :
    ∀ g ∈ (run cf State.init es).2.frames,
      (g.id ≠ 0 ∧ g.ack = 0 ∧ g.size = g.data.length ∧ 1 ≤ g.size ∧ g.size ≤ cf.MTU) ∨
      (g.id = 0 ∧ g.ack ≠ 0 ∧ g.size = 0 ∧ g.data = []) :=
  run_wf cf hm1 hm2 es State.init (fun t ht => by cases ht)

/-- Witness of C15: the frame `(1, 0, 2, [1, 2])`, handed to the pump in a run
of a write, a tick, an inbound data frame and an acknowledgment with MTU 2. -/
theorem emitted_frames_wf_witness :
    ((⟨1, 0, 2, [1, 2]⟩ : Frame).id ≠ 0 ∧ (⟨1, 0, 2, [1, 2]⟩ : Frame).ack = 0 ∧
      (⟨1, 0, 2, [1, 2]⟩ : Frame).size = (⟨1, 0, 2, [1, 2]⟩ : Frame).data.length ∧
      1 ≤ (⟨1, 0, 2, [1, 2]⟩ : Frame).size ∧
      (⟨1, 0, 2, [1, 2]⟩ : Frame).size ≤ (⟨2, 0⟩ : Config).MTU) ∨
    ((⟨1, 0, 2, [1, 2]⟩ : Frame).id = 0 ∧ (⟨1, 0, 2, [1, 2]⟩ : Frame).ack ≠ 0 ∧
      (⟨1, 0, 2, [1, 2]⟩ : Frame).size = 0 ∧ (⟨1, 0, 2, [1, 2]⟩ : Frame).data = []) :=
  emitted_frames_wf ⟨2, 0⟩
    [Event.write [1, 2, 3] true, Event.retry true true,
     Event.frame ⟨7, 0, 1, [9]⟩ true, Event.frame ⟨0, 1, 0, []⟩ true]
    (by decide) (by decide) ⟨1, 0, 2, [1, 2]⟩ (by decide)

/-! ## Idle means nothing left to send -/

theorem next_idle_empty (cf : Config) (s : State) (c : Bool) :
    (next cf s c).1.tx = none → (next cf s c).1.bw = [] := by
  by_cases htx : s.tx = none
  · by_cases hbw : s.bw = []
    · rw [next_empty cf s c hbw]; exact fun _ => hbw
    · rw [next_frame cf s c htx hbw]; intro h; cases h
  · rw [next_pending cf s c htx]; exact fun h => absurd h htx

theorem step_idle_empty (cf : Config) (s : State) (e : Event)
    (h : s.tx = none → s.bw = []) :
    (step cf s e).1.tx = none → (step cf s e).1.bw = [] := by
  cases e with
  | read n => simpa [step] using h
  | write p c => exact next_idle_empty cf _ c
  | frame f c =>
    by_cases hid : f.id = 0
    · cases htx : s.tx with
      | none =>
        have hs : step cf s (Event.frame f c) = (s, ⟨[], []⟩) := by simp [step, hid, htx]
        rw [hs]; exact h
      | some t =>
        by_cases hack : t.id = f.ack
        · have hs : step cf s (Event.frame f c)
              = ((next cf { s with tx := none } c).1,
                 ⟨(next cf { s with tx := none } c).2, []⟩) := by
            simp [step, hid, htx, hack]
          rw [hs]; exact next_idle_empty cf _ c
        · have hs : step cf s (Event.frame f c) = (s, ⟨[], []⟩) := by
            simp [step, hid, htx, hack]
          rw [hs]; exact h
    · have hk : (step cf s (Event.frame f c)).1.tx = s.tx ∧
          (step cf s (Event.frame f c)).1.bw = s.bw := by
        simp only [step, if_neg hid]
        cases s.rx with
        | none => exact ⟨rfl, rfl⟩
        | some r => dsimp only; split_ifs <;> exact ⟨rfl, rfl⟩
      rw [hk.1, hk.2]; exact h
  | retry c1 c2 =>
    have hn := next_idle_empty cf s c1
    simp only [step]
    cases htx : (next cf s c1).1.tx with
    | none => simp only; intro _; exact hn htx
    | some t => simp only; intro h'; rw [htx] at h'; cases h'

theorem run_idle_empty (cf : Config) (es : List Event) :
    ∀ s, (s.tx = none → s.bw = []) →
      (run cf s es).1.tx = none → (run cf s es).1.bw = [] := by
  induction es with
  | nil => intro s h; exact h
  | cons e es ih => intro s h; exact ih _ (step_idle_empty cf s e h)

/-- C20, idle implies nothing left to send: after any sequence of events from
the initial state, if no frame is pending then the outbound buffer is empty;
so the `next` at the start of a retry tick changes nothing and frames nothing,
and the tick hands to the pump at most the frame that was already pending. -/
theorem idle_outbound_empty (cf : Config) (es : List Event) :
    ((run cf State.init es).1.tx = none → (run cf State.init es).1.bw = []) ∧
    (∀ c, next cf (run cf State.init es).1 c = ((run cf State.init es).1, [])) ∧
    (∀ c1 c2, (step cf (run cf State.init es).1 (Event.retry c1 c2)).1
      = (run cf State.init es).1) := by
  have h := run_idle_empty cf es State.init (fun _ => rfl)
  have hn : ∀ c, next cf (run cf State.init es).1 c = ((run cf State.init es).1, []) := by
    intro c
    by_cases htx : (run cf State.init es).1.tx = none
    · exact next_empty cf _ c (h htx)
    · exact next_pending cf _ c htx
  refine ⟨h, hn, ?_⟩
  intro c1 c2
  simp only [step, hn]
  cases (run cf State.init es).1.tx <;> rfl

/-! ## The framing step -/

/-- C16 as amended, `next` is a no-op exactly when it should be: with
`MTU ≤ 255`, if a frame is pending or the outbound buffer is empty `next`
changes nothing and hands nothing to the pump; otherwise it removes the first
`n = min(MTU, L)` bytes from the outbound buffer, draws one value from the
sequencer, and makes the data frame (that value, 0, `n`, those `n` bytes) the
pending frame, leaving the inbound buffer and the last accepted frame as they
were; the pump gets that frame or nothing. -/
theorem advance_effect (cf : Config) (s : State) (c : Bool) (hm : cf.MTU ≤ 255) :
    ((s.tx ≠ none ∨ s.bw = []) → next cf s c = (s, [])) ∧
    (s.tx = none → s.bw ≠ [] →
      (next cf s c).1 =
        { s with bw := s.bw.drop (min cf.MTU s.bw.length),
                 tx := some ⟨(seqRecv s.sn).1, 0, min cf.MTU s.bw.length,
                   s.bw.take (min cf.MTU s.bw.length)⟩,
                 sn := (seqRecv s.sn).2 } ∧
      (next cf s c).2 = (if c then [⟨(seqRecv s.sn).1, 0, min cf.MTU s.bw.length,
                   s.bw.take (min cf.MTU s.bw.length)⟩] else []) ∧
      (s.bw.take (min cf.MTU s.bw.length)).length = min cf.MTU s.bw.length ∧
      s.bw = s.bw.take (min cf.MTU s.bw.length) ++ (next cf s c).1.bw ∧
      (next cf s c).1.br = s.br ∧ (next cf s c).1.rx = s.rx) := by
  constructor
  · rintro (h | h)
    · exact next_pending cf s c h
    · exact next_empty cf s c h
  · intro htx hbw
    have hmod : min cf.MTU s.bw.length % 256 = min cf.MTU s.bw.length := by
      apply Nat.mod_eq_of_lt
      have := Nat.min_le_left cf.MTU s.bw.length
      omega
    rw [next_frame cf s c htx hbw, hmod]
    refine ⟨rfl, rfl, ?_, ?_, rfl, rfl⟩
    · rw [List.length_take]
      omega
    · simp

/-- Witness of the amended C16: MTU 2 and `[1, 2, 3]` in the outbound buffer. -/
theorem advance_effect_witness :
    (next ⟨2, 0⟩ ⟨[], [1, 2, 3], none, none, 1⟩ true).1 = ⟨[], [3], none, some ⟨1, 0, 2, [1, 2]⟩, 2⟩ :=
  ((advance_effect ⟨2, 0⟩ ⟨[], [1, 2, 3], none, none, 1⟩ true (by decide)).2 rfl
    (by decide)).1

/-- C16 refuted as stated: with MTU 300 and 300 bytes in the outbound buffer
`next` removes `n = 300` bytes, which the frame carries, but the size field of
the frame, a byte, is 44. -/
theorem advance_size_truncated :
    min 300 (List.replicate 300 7).length = 300 ∧
    (next ⟨300, 0⟩ ⟨[], List.replicate 300 7, none, none, 1⟩ true).1.tx.map (·.data.length)
      = some 300 ∧
    (next ⟨300, 0⟩ ⟨[], List.replicate 300 7, none, none, 1⟩ true).1.tx.map (·.size)
      = some 44 ∧
    (next ⟨300, 0⟩ ⟨[], List.replicate 300 7, none, none, 1⟩ true).1.bw = [] := by
  set_option maxRecDepth 100000 in decide

/-! ## Corruption outside the start and size bytes -/

/-- C19, a single flipped bit outside the start and size bytes is always
caught: for a frame whose fields are bytes and whose size is the length of its
data, and for bit `k` of byte `i` of the encoded frame, where `i` is the id
byte, the ack byte, a payload byte or a checksum byte, `Decode` of the bytes
with that bit flipped returns `ErrChecksum`; and flipping one bit of any byte
of a message always changes its IEEE CRC-32. -/
theorem single_bit_caught (f g : Frame) (i k : Nat)
    (hb : f.IsBytes) (hsize : f.size = f.data.length) (hk : k < 8)
    (hi : i = 1 ∨ i = 2 ∨ (4 ≤ i ∧ i < 8 + f.data.length)) :
    (Decode g [flipBit (Encode f []).2 (8 * i + k)]).1 = some Err.ErrChecksum ∧
    (∀ (msg : List Nat) (j : Nat), (∀ b ∈ msg, b < 256) → j < msg.length →
      ChecksumIEEE (msg.set j (msg.getD j 0 ^^^ 2 ^ k)) ≠ ChecksumIEEE msg) := by
  have hcrc : ∀ (msg : List Nat) (j : Nat), (∀ b ∈ msg, b < 256) → j < msg.length →
      ChecksumIEEE (msg.set j (msg.getD j 0 ^^^ 2 ^ k)) ≠ ChecksumIEEE msg := by
    intro msg j hmsg hj
    obtain ⟨hv, hne⟩ := flip_mask (getD_lt_256 hmsg j) hk
    exact ChecksumIEEE_set_ne msg j _ hmsg hj hv hne
  refine ⟨?_, hcrc⟩
  have hdiv : (8 * i + k) / 8 = i := by omega
  have hmod : (8 * i + k) % 8 = k := by omega
  have hmsgb := MarshalBinary_bytes hb
  have hmlen : (MarshalBinary f).length = 4 + f.data.length := by
    simp [MarshalBinary]; omega
  have hstart : (MarshalBinary f).getD 0 0 = start := by simp [MarshalBinary]
  have hc := getUint32_putUint32 _ (ChecksumIEEE_lt _ hmsgb)
  have henc : (Encode f []).2 = MarshalBinary f ++ putUint32 (ChecksumIEEE (MarshalBinary f)) := by
    simp [Encode]
  have h0 : i ≠ 0 := by omega
  have h3 : i ≠ 3 := by omega
  rw [henc]
  unfold flipBit
  rw [hdiv, hmod]
  by_cases hbody : i < (MarshalBinary f).length
  · -- the id byte, the ack byte or a payload byte
    rw [List.getD_append _ _ _ _ hbody, List.set_append_left _ _ hbody]
    have hsz : ((MarshalBinary f).set i ((MarshalBinary f).getD i 0 ^^^ 2 ^ k)).getD 3 0
        = f.size := by
      rw [List.getD_eq_getElem?_getD, List.getElem?_set_ne h3]
      simp [MarshalBinary]
    have hst : ((MarshalBinary f).set i ((MarshalBinary f).getD i 0 ^^^ 2 ^ k)).getD 0 0
        = start := by
      rw [List.getD_eq_getElem?_getD, List.getElem?_set_ne h0]
      simp [MarshalBinary]
    rw [Decode_err_msg _ _ _ (by rw [hsz, List.length_set, hmlen, hsize]) (putUint32_length _),
      if_neg (by rw [hst]; simp), hc, if_pos]
    exact (hcrc _ i hmsgb hbody).symm
  · -- a checksum byte
    have hle : (MarshalBinary f).length ≤ i := by omega
    rw [List.getD_append_right _ _ _ _ hle, List.set_append_right _ _ hle]
    obtain ⟨_, hne⟩ := flip_mask
      (getD_lt_256 (putUint32_bytes (ChecksumIEEE (MarshalBinary f)))
        (i - (MarshalBinary f).length)) hk
    rw [Decode_err_msg _ _ _ (by rw [hmlen]; simp [MarshalBinary, hsize])
      (by simp [putUint32_length]), if_neg (by rw [hstart]; simp), if_pos]
    have key := getUint32_set_ne _ _ _ (putUint32_length (ChecksumIEEE (MarshalBinary f)))
      (putUint32_bytes _) (show i - (MarshalBinary f).length < 4 by omega) hne
    rw [hc] at key
    exact key

/-- Witness of C19: bit 7 of the first checksum byte of the encoded frame
`(1, 0, 3, [10, 20, 30])`. -/
theorem single_bit_caught_witness :
    (Decode ⟨0, 0, 0, []⟩ [flipBit (Encode ⟨1, 0, 3, [10, 20, 30]⟩ []).2 (8 * 7 + 7)]).1
      = some Err.ErrChecksum :=
  (single_bit_caught ⟨1, 0, 3, [10, 20, 30]⟩ ⟨0, 0, 0, []⟩ 7 7 (by decide) (by decide)
    (by decide) (by decide)).1

/-! ## Delivery once loss pauses -/

theorem Sys_run_append (cfA cfB : Config) (l1 l2 : List SysEvent) :
    ∀ y, Sys.run cfA cfB y (l1 ++ l2) = Sys.run cfA cfB (Sys.run cfA cfB y l1) l2 := by
  induction l1 with
  | nil => intro y; rfl
  | cons e l1 ih => intro y; exact ih _

theorem remaining_next (cf : Config) (a : State) (c : Bool) (hm : 1 ≤ cf.MTU) :
    remaining (next cf a c).1 ≤ remaining a := by
  by_cases htx : a.tx = none
  · by_cases hbw : a.bw = []
    · rw [next_empty cf a c hbw]
    · rw [next_frame cf a c htx hbw]
      have hL : 1 ≤ a.bw.length := List.length_pos.mpr hbw
      simp only [remaining, htx, List.length_drop, Option.isSome_some, Option.isSome_none,
        if_true]
      simp only [Bool.false_eq_true, if_false]
      omega
  · rw [next_pending cf a c htx]

theorem remaining_step_frame (cf : Config) (a : State) (g : Frame) (c : Bool)
    (hm : 1 ≤ cf.MTU) :
    remaining (step cf a (Event.frame g c)).1 ≤ remaining a ∧
    (∀ f, a.tx = some f → g.id = 0 → g.ack = f.id →
      remaining (step cf a (Event.frame g c)).1 < remaining a) ∧
    (∀ f, a.tx = some f → ¬ (g.id = 0 ∧ g.ack = f.id) →
      (step cf a (Event.frame g c)).1.tx = some f) := by
  by_cases hid : g.id = 0
  · cases htx : a.tx with
    | none =>
      have hs : step cf a (Event.frame g c) = (a, ⟨[], []⟩) := by simp [step, hid, htx]
      rw [hs]
      exact ⟨Nat.le_refl _, fun f hf => (by cases hf), fun f hf => (by cases hf)⟩
    | some t =>
      by_cases hack : t.id = g.ack
      · have hs : step cf a (Event.frame g c)
            = ((next cf { a with tx := none } c).1,
               ⟨(next cf { a with tx := none } c).2, []⟩) := by
          simp [step, hid, htx, hack]
        have hn := remaining_next cf { a with tx := none } c hm
        have hr : remaining { a with tx := none } + 1 = remaining a := by
          simp [remaining, htx]
        rw [hs]
        dsimp only
        refine ⟨by omega, fun f _ _ _ => (by omega), ?_⟩
        intro f hf hne
        simp only [Option.some.injEq] at hf
        exact absurd ⟨hid, by rw [← hf]; exact hack.symm⟩ hne
      · have hs : step cf a (Event.frame g c) = (a, ⟨[], []⟩) := by
          simp [step, hid, htx, hack]
        rw [hs]
        refine ⟨Nat.le_refl _, ?_, fun f hf _ => ?_⟩
        · intro f hf _ hgf
          simp only [Option.some.injEq] at hf
          exact absurd (by rw [hf]; exact hgf.symm) hack
        · rw [htx]; exact hf
  · have hk : (step cf a (Event.frame g c)).1.tx = a.tx ∧
        (step cf a (Event.frame g c)).1.bw = a.bw := by
      simp only [step, if_neg hid]
      cases a.rx with
      | none => exact ⟨rfl, rfl⟩
      | some r => dsimp only; split_ifs <;> exact ⟨rfl, rfl⟩
    refine ⟨?_, fun f _ h0 _ => absurd h0 hid, fun f hf _ => by rw [hk.1]; exact hf⟩
    simp only [remaining, hk.1, hk.2]
    exact Nat.le_refl _

theorem step_frame_out (cf : Config) (b : State) (g : Frame) (c : Bool) :
    (step cf b (Event.frame g c)).2.frames.length ≤ 1 ∧
    (g.id ≠ 0 → (step cf b (Event.frame g c)).2.frames = [⟨0, g.id, 0, []⟩]) := by
  constructor
  · by_cases hid : g.id = 0
    · have hnext : ∀ s, (next cf s c).2.length ≤ 1 := by
        intro s
        unfold next
        split_ifs <;> simp
      cases htx : b.tx with
      | none => simp [step, hid, htx]
      | some t =>
        by_cases hack : t.id = g.ack
        · simpa [step, hid, htx, hack] using hnext _
        · simp [step, hid, htx, hack]
    · simp [step, hid]
  · intro hid
    simp [step, hid]

theorem Sys_run_cons (cfA cfB : Config) (y : Sys) (e : SysEvent) (l : List SysEvent) :
    Sys.run cfA cfB y (e :: l) = Sys.run cfA cfB (Sys.step cfA cfB y e) l := rfl

/-- Every frame in flight to `b` is delivered: the channel is empty afterwards,
`a` is untouched, and each data frame has its acknowledgment in flight. -/
theorem deliverAB_all (cfA cfB : Config) :
    ∀ (n : Nat) (y : Sys), y.ab.length ≤ n →
      (Sys.run cfA cfB y (List.replicate n (SysEvent.deliverAB true))).ab = [] ∧
      (Sys.run cfA cfB y (List.replicate n (SysEvent.deliverAB true))).a = y.a ∧
      (Sys.run cfA cfB y (List.replicate n (SysEvent.deliverAB true))).written = y.written ∧
      (Sys.run cfA cfB y (List.replicate n (SysEvent.deliverAB true))).ba.length
        ≤ y.ba.length + y.ab.length ∧
      (∀ x ∈ y.ba, x ∈ (Sys.run cfA cfB y (List.replicate n (SysEvent.deliverAB true))).ba) ∧
      (∀ g ∈ y.ab, g.id ≠ 0 → (⟨0, g.id, 0, []⟩ : Frame) ∈
        (Sys.run cfA cfB y (List.replicate n (SysEvent.deliverAB true))).ba) := by
  intro n
  induction n with
  | zero =>
    intro y hlen
    have hab : y.ab = [] := List.length_eq_zero.mp (by omega)
    simp only [List.replicate_zero, Sys.run]
    refine ⟨hab, trivial, trivial, by omega, fun x hx => hx, ?_⟩
    intro g hg
    rw [hab] at hg
    cases hg
  | succ n ih =>
    intro y hlen
    rw [List.replicate_succ, Sys_run_cons]
    cases hab : y.ab with
    | nil =>
      have hstep : Sys.step cfA cfB y (SysEvent.deliverAB true) = y := by
        simp [Sys.step, hab]
      rw [hstep]
      have := ih y (by rw [hab]; simp)
      rw [hab] at this
      exact this
    | cons g rest =>
      have hstep : Sys.step cfA cfB y (SysEvent.deliverAB true)
          = { y with b := (step cfB y.b (Event.frame g true)).1, ab := rest,
                     ba := y.ba ++ (step cfB y.b (Event.frame g true)).2.frames } := by
        simp [Sys.step, hab]
      rw [hab] at hlen
      simp only [List.length_cons] at hlen
      obtain ⟨h1, h2, h3, h4, h5, h6⟩ := ih
        { y with b := (step cfB y.b (Event.frame g true)).1, ab := rest,
                 ba := y.ba ++ (step cfB y.b (Event.frame g true)).2.frames } (by simpa using hlen)
      have hout := step_frame_out cfB y.b g true
      rw [hstep]
      simp only [List.length_append, List.length_cons] at h4 ⊢
      refine ⟨h1, h2, h3, by omega, ?_, ?_⟩
      · intro x hx
        exact h5 x (List.mem_append_left _ hx)
      · intro g' hg' hid
        rcases List.mem_cons.mp hg' with he | hmem
        · subst he
          apply h5
          simp only
          rw [hout.2 hid]
          simp
        · exact h6 g' hmem hid

/-- Every frame in flight to `a` is delivered: the channel is empty
afterwards, the work left at `a` has not grown, and it has shrunk if the
acknowledgment of the pending frame was among them. -/
theorem deliverBA_all (cfA cfB : Config) (hm : 1 ≤ cfA.MTU) :
    ∀ (n : Nat) (y : Sys), y.ba.length ≤ n →
      (Sys.run cfA cfB y (List.replicate n (SysEvent.deliverBA true))).ba = [] ∧
      (Sys.run cfA cfB y (List.replicate n (SysEvent.deliverBA true))).written = y.written ∧
      remaining (Sys.run cfA cfB y (List.replicate n (SysEvent.deliverBA true))).a
        ≤ remaining y.a ∧
      (∀ f, y.a.tx = some f → (∃ g ∈ y.ba, g.id = 0 ∧ g.ack = f.id) →
        remaining (Sys.run cfA cfB y (List.replicate n (SysEvent.deliverBA true))).a
          < remaining y.a) := by
  intro n
  induction n with
  | zero =>
    intro y hlen
    have hba : y.ba = [] := List.length_eq_zero.mp (by omega)
    simp only [List.replicate_zero, Sys.run]
    refine ⟨hba, trivial, Nat.le_refl _, ?_⟩
    rintro f _ ⟨g, hg, _⟩
    rw [hba] at hg
    cases hg
  | succ n ih =>
    intro y hlen
    rw [List.replicate_succ, Sys_run_cons]
    cases hba : y.ba with
    | nil =>
      have hstep : Sys.step cfA cfB y (SysEvent.deliverBA true) = y := by
        simp [Sys.step, hba]
      rw [hstep]
      have := ih y (by rw [hba]; simp)
      rw [hba] at this
      exact this
    | cons g rest =>
      have hstep : Sys.step cfA cfB y (SysEvent.deliverBA true)
          = { y with a := (step cfA y.a (Event.frame g true)).1, ba := rest,
                     ab := y.ab ++ (step cfA y.a (Event.frame g true)).2.frames } := by
        simp [Sys.step, hba]
      rw [hba] at hlen
      simp only [List.length_cons] at hlen
      obtain ⟨h1, h2, h3, h4⟩ := ih
        { y with a := (step cfA y.a (Event.frame g true)).1, ba := rest,
                 ab := y.ab ++ (step cfA y.a (Event.frame g true)).2.frames } (by simpa using hlen)
      obtain ⟨k1, k2, k3⟩ := remaining_step_frame cfA y.a g true hm
      rw [hstep]
      simp only at h3 h4 ⊢
      refine ⟨h1, h2, by omega, ?_⟩
      rintro f hf ⟨g', hg', hid, hack⟩
      by_cases hmatch : g.id = 0 ∧ g.ack = f.id
      · have := k2 f hf hmatch.1 hmatch.2
        omega
      · have htx := k3 f hf hmatch
        rcases List.mem_cons.mp hg' with he | hmem
        · subst he
          exact absurd ⟨hid, hack⟩ hmatch
        · have := h4 f htx ⟨g', hmem, hid, hack⟩
          omega

/-- The retry tick at `a` with the pump ready: the pending frame, or the one
`next` has just made, is in flight afterwards. -/
theorem retryA_effect (cfA cfB : Config) (y : Sys) (hm : 1 ≤ cfA.MTU) :
    (Sys.step cfA cfB y (SysEvent.retryA true true)).ba = y.ba ∧
    (Sys.step cfA cfB y (SysEvent.retryA true true)).written = y.written ∧
    (Sys.step cfA cfB y (SysEvent.retryA true true)).ab.length ≤ y.ab.length + 2 ∧
    remaining (Sys.step cfA cfB y (SysEvent.retryA true true)).a ≤ remaining y.a ∧
    (0 < remaining y.a → ∃ f, (Sys.step cfA cfB y (SysEvent.retryA true true)).a.tx = some f ∧
      f ∈ (Sys.step cfA cfB y (SysEvent.retryA true true)).ab) := by
  have hrem := remaining_next cfA y.a true hm
  by_cases htx : y.a.tx = none
  · by_cases hbw : y.a.bw = []
    · have hn := next_empty cfA y.a true hbw
      have hs : Sys.step cfA cfB y (SysEvent.retryA true true) = { y with ab := y.ab ++ [] } := by
        simp [Sys.step, FrameConn.step, hn, htx]
      rw [hs]
      refine ⟨rfl, rfl, by simp, Nat.le_refl _, ?_⟩
      intro hpos
      simp [remaining, htx, hbw] at hpos
    · have hn := next_frame cfA y.a true htx hbw
      simp only [Sys.step, FrameConn.step]
      rw [hn] at hrem ⊢
      simp only [if_true, List.length_append, List.length_cons, List.length_nil] at hrem ⊢
      refine ⟨trivial, trivial, by omega, hrem, fun _ => ⟨_, rfl, by simp⟩⟩
  · obtain ⟨f, hf⟩ : ∃ f, y.a.tx = some f := by
      cases h : y.a.tx with
      | none => exact absurd h htx
      | some f => exact ⟨f, rfl⟩
    have hn := next_pending cfA y.a true htx
    simp only [Sys.step, FrameConn.step, hn, hf, if_true, List.nil_append, List.length_append,
      List.length_cons, List.length_nil]
    refine ⟨trivial, trivial, by omega, Nat.le_refl _, fun _ => ⟨f, rfl, by simp⟩⟩

theorem Inv_tx_id {y : Sys} (h : Inv y) (f : Frame) (hf : y.a.tx = some f) : f.id ≠ 0 := by
  obtain ⟨_, _, _, _, h | ⟨f', h⟩ | ⟨f', h⟩⟩ := h
  · rw [h.1] at hf; cases hf
  · rw [h.1] at hf; cases hf; exact h.2.1
  · rw [h.1] at hf; cases hf; exact h.2.1

/-- One round without loss leaves the invariant and the history intact and
shrinks the work left at the sender, if there was any. -/
theorem flush_progress (cfA cfB : Config) (hm : 1 ≤ cfA.MTU) (y : Sys) (h : Inv y) :
    Inv (Sys.run cfA cfB y (flushEvents y)) ∧
    (Sys.run cfA cfB y (flushEvents y)).written = y.written ∧
    remaining (Sys.run cfA cfB y (flushEvents y)).a ≤ remaining y.a - 1 := by
  refine ⟨Inv.run_holds cfA cfB _ y h, ?_⟩
  unfold flushEvents
  rw [Sys_run_cons, Sys_run_append]
  obtain ⟨r1, r2, r3, r4, r5⟩ := retryA_effect cfA cfB y hm
  have hinv1 := Inv.step_holds cfA cfB y (SysEvent.retryA true true) h
  obtain ⟨a1, a2, a3, a4, _, a6⟩ := deliverAB_all cfA cfB (y.ab.length + 2)
    (Sys.step cfA cfB y (SysEvent.retryA true true)) r3
  obtain ⟨b1, b2, b3, b4⟩ := deliverBA_all cfA cfB hm (y.ab.length + y.ba.length + 2)
    (Sys.run cfA cfB (Sys.step cfA cfB y (SysEvent.retryA true true))
      (List.replicate (y.ab.length + 2) (SysEvent.deliverAB true)))
    (by rw [r1] at a4; omega)
  refine ⟨by rw [b2, a3, r2], ?_⟩
  rw [a2] at b3 b4
  by_cases hpos : 0 < remaining y.a
  · obtain ⟨f, hf, hmem⟩ := r5 hpos
    have hid := Inv_tx_id hinv1 f hf
    have := b4 f hf ⟨_, a6 f hmem hid, rfl, rfl⟩
    omega
  · omega

/-- After as many rounds without loss as there is work left, nothing is left
to send. -/
theorem settle_done (cfA cfB : Config) (hm : 1 ≤ cfA.MTU) :
    ∀ (k : Nat) (y : Sys), Inv y → remaining y.a ≤ k →
      Inv (Sys.run cfA cfB y (settle cfA cfB k y)) ∧
      remaining (Sys.run cfA cfB y (settle cfA cfB k y)).a = 0 ∧
      (Sys.run cfA cfB y (settle cfA cfB k y)).written = y.written := by
  intro k
  induction k with
  | zero =>
    intro y h hk
    exact ⟨h, Nat.le_zero.mp hk, rfl⟩
  | succ k ih =>
    intro y h hk
    obtain ⟨f1, f2, f3⟩ := flush_progress cfA cfB hm y h
    obtain ⟨g1, g2, g3⟩ := ih _ f1 (by omega)
    rw [settle, Sys_run_append]
    exact ⟨g1, g2, by rw [g3, f2]⟩

theorem remaining_zero {a : State} (h : remaining a = 0) : a.tx = none ∧ a.bw = [] := by
  unfold remaining at h
  cases htx : a.tx with
  | none => exact ⟨rfl, List.length_eq_zero.mp (by omega)⟩
  | some t => rw [htx] at h; simp at h

theorem Inv_idle_written {y : Sys} (h : Inv y) (htx : y.a.tx = none) :
    y.written = y.got ++ y.b.br ++ y.a.bw := by
  obtain ⟨_, _, _, _, h | ⟨f, h⟩ | ⟨f, h⟩⟩ := h
  · exact h.2.1
  · rw [h.1] at htx; cases htx
  · rw [h.1] at htx; cases htx

/-! ## The frames in flight survive the codec -/

/-- A frame whose fields are bytes and whose size is the length of its data is
decoded as itself from a reader that satisfies every request in full, whatever
follows it in the stream, and exactly its encoding is consumed. -/
theorem Wire_survives (f g : Frame) (t : List Nat) (h : Wire f) :
    (Decode g [(Encode f []).2 ++ t]).1 = none ∧
    (Decode g [(Encode f []).2 ++ t]).2.1 = f ∧
    unread (Decode g [(Encode f []).2 ++ t]).2.2 = t := by
  obtain ⟨hb, hsize⟩ := h
  have hfull : Full [(Encode f []).2 ++ t]
      ([start, f.id, f.ack, f.size] ++
        (f.data ++ (putUint32 (ChecksumIEEE (MarshalBinary f)) ++ t))) := by
    left
    simp [Encode, MarshalBinary]
  obtain ⟨r1, r3, _, hf3, hdec⟩ :=
    Decode_full g start f.id f.ack f.size f.data _ t hsize.symm (putUint32_length _) hfull
  have hc : getUint32 (putUint32 (ChecksumIEEE (MarshalBinary f))) =
      ChecksumIEEE ([start, f.id, f.ack, f.size] ++ f.data) :=
    getUint32_putUint32 _ (ChecksumIEEE_lt _ (MarshalBinary_bytes hb))
  rw [hdec]
  simp only [ne_eq, not_true_eq_false, if_false, hc]
  exact ⟨trivial, trivial, hf3.unread_eq⟩

theorem Wire_ack {i : Nat} (h : i < 256) : Wire ⟨0, i, 0, []⟩ :=
  ⟨⟨Nat.zero_lt_succ 255, h, Nat.zero_lt_succ 255, by simp⟩, rfl⟩

theorem seqRecv_lt {n : Nat} (h : n < 256) : (seqRecv n).1 < 256 ∧ (seqRecv n).2 < 256 := by
  unfold seqRecv byteSucc
  split_ifs <;> simp only <;> omega

theorem next_wire (cf : Config) (s : State) (c : Bool) (hm : cf.MTU ≤ 255) (h : StWire s) :
    StWire (next cf s c).1 ∧ ∀ g ∈ (next cf s c).2, Wire g := by
  obtain ⟨hbw, hsn, htxw⟩ := h
  by_cases htx : s.tx = none
  · by_cases hb : s.bw = []
    · rw [next_empty cf s c hb]; exact ⟨⟨hbw, hsn, htxw⟩, by simp⟩
    · rw [next_frame cf s c htx hb]
      have hseq := seqRecv_lt hsn
      have hn : min cf.MTU s.bw.length ≤ 255 := Nat.le_trans (Nat.min_le_left _ _) hm
      have hw : Wire ⟨(seqRecv s.sn).1, 0, min cf.MTU s.bw.length % 256,
          s.bw.take (min cf.MTU s.bw.length)⟩ := by
        refine ⟨⟨hseq.1, Nat.zero_lt_succ 255, Nat.mod_lt _ (by decide),
          fun b hb' => hbw b (List.mem_of_mem_take hb')⟩, ?_⟩
        simp only [List.length_take]
        omega
      refine ⟨⟨fun b hb' => hbw b (List.mem_of_mem_drop hb'), hseq.2, ?_⟩, ?_⟩
      · intro t ht
        simp only [Option.some.injEq] at ht
        rw [← ht]; exact hw
      · intro g hg
        cases c
        · simp at hg
        · simp only [if_true, List.mem_singleton] at hg
          rw [hg]; exact hw
  · rw [next_pending cf s c htx]; exact ⟨⟨hbw, hsn, htxw⟩, by simp⟩

theorem step_write_wire (cf : Config) (s : State) (p : List Nat) (c : Bool)
    (hm : cf.MTU ≤ 255) (h : StWire s) (hp : ∀ b ∈ p, b < 256) :
    StWire (step cf s (Event.write p c)).1 ∧
    ∀ g ∈ (step cf s (Event.write p c)).2.frames, Wire g := by
  have hs : StWire { s with bw := s.bw ++ p } := by
    refine ⟨?_, h.2.1, h.2.2⟩
    intro b hb
    rcases List.mem_append.mp hb with hb | hb
    · exact h.1 b hb
    · exact hp b hb
  exact next_wire cf _ c hm hs

theorem step_retry_wire (cf : Config) (s : State) (c1 c2 : Bool)
    (hm : cf.MTU ≤ 255) (h : StWire s) :
    StWire (step cf s (Event.retry c1 c2)).1 ∧
    ∀ g ∈ (step cf s (Event.retry c1 c2)).2.frames, Wire g := by
  have hn := next_wire cf s c1 hm h
  simp only [step]
  cases htx : (next cf s c1).1.tx with
  | none => exact ⟨hn.1, hn.2⟩
  | some t =>
    refine ⟨hn.1, ?_⟩
    intro g hg
    rcases mem_append_if hg with hg | hg
    · exact hn.2 g hg
    · rw [hg]; exact hn.1.2.2 t htx

theorem step_frame_wire (cf : Config) (s : State) (f : Frame) (c : Bool)
    (hm : cf.MTU ≤ 255) (h : StWire s) (hf : Wire f) :
    StWire (step cf s (Event.frame f c)).1 ∧
    ∀ g ∈ (step cf s (Event.frame f c)).2.frames, Wire g := by
  by_cases hid : f.id = 0
  · cases htx : s.tx with
    | none =>
      have hs : step cf s (Event.frame f c) = (s, ⟨[], []⟩) := by simp [step, hid, htx]
      rw [hs]; exact ⟨h, by simp⟩
    | some t =>
      by_cases hack : t.id = f.ack
      · have hs : step cf s (Event.frame f c)
            = ((next cf { s with tx := none } c).1,
               ⟨(next cf { s with tx := none } c).2, []⟩) := by
          simp [step, hid, htx, hack]
        rw [hs]
        exact next_wire cf _ c hm ⟨h.1, h.2.1, fun t ht => (by cases ht)⟩
      · have hs : step cf s (Event.frame f c) = (s, ⟨[], []⟩) := by
          simp [step, hid, htx, hack]
        rw [hs]; exact ⟨h, by simp⟩
  · have hout : (step cf s (Event.frame f c)).2.frames = [⟨0, f.id, 0, []⟩] := by
      simp [step, hid]
    have hk : (step cf s (Event.frame f c)).1.tx = s.tx ∧
        (step cf s (Event.frame f c)).1.bw = s.bw ∧
        (step cf s (Event.frame f c)).1.sn = s.sn := by
      simp only [step, if_neg hid]
      cases s.rx with
      | none => exact ⟨rfl, rfl, rfl⟩
      | some r => dsimp only; split_ifs <;> exact ⟨rfl, rfl, rfl⟩
    refine ⟨?_, ?_⟩
    · unfold StWire
      rw [hk.1, hk.2.1, hk.2.2]
      exact h
    · rw [hout]
      intro g hg
      simp only [List.mem_singleton] at hg
      rw [hg]
      exact Wire_ack hf.1.1

theorem step_idle_out (cf : Config) (b : State) (g : Frame) (c : Bool) (htx : b.tx = none) :
    ∀ x ∈ (step cf b (Event.frame g c)).2.frames, x = ⟨0, g.id, 0, []⟩ := by
  by_cases hid : g.id = 0
  · simp [step, hid, htx]
  · simp [step, hid]

theorem bytesOK_write {p : List Nat} {c : Bool}
    (h : (SysEvent.writeA p c).bytesOK = true) : ∀ b ∈ p, b < 256 := by
  intro b hb
  simp only [SysEvent.bytesOK, List.all_eq_true, decide_eq_true_eq] at h
  exact h b hb

theorem SysWire_step (cfA cfB : Config) (y : Sys) (e : SysEvent) (hm : cfA.MTU ≤ 255)
    (hinv : Inv y) (h : SysWire y) (he : e.bytesOK = true) :
    SysWire (Sys.step cfA cfB y e) := by
  obtain ⟨ha, hab, hba⟩ := h
  obtain ⟨hbtx, hbbw, _⟩ := hinv
  have happ : ∀ (l u : List Frame), (∀ g ∈ l, Wire g) → (∀ g ∈ u, Wire g) →
      ∀ g ∈ l ++ u, Wire g := by
    intro l u hl hu g hg
    rcases List.mem_append.mp hg with hg | hg
    · exact hl g hg
    · exact hu g hg
  cases e with
  | writeA p c =>
    have := step_write_wire cfA y.a p c hm ha (bytesOK_write he)
    exact ⟨this.1, happ _ _ hab this.2, hba⟩
  | retryA c1 c2 =>
    have := step_retry_wire cfA y.a c1 c2 hm ha
    exact ⟨this.1, happ _ _ hab this.2, hba⟩
  | retryB c1 c2 =>
    have hn : next cfB y.b c1 = (y.b, []) := next_empty cfB y.b c1 hbbw
    simp only [Sys.step, FrameConn.step, hn, hbtx, List.append_nil]
    exact ⟨ha, hab, hba⟩
  | deliverAB c =>
    simp only [Sys.step]
    cases hl : y.ab with
    | nil => simp only; exact ⟨ha, hab, hba⟩
    | cons g rest =>
      simp only
      rw [hl] at hab
      refine ⟨ha, fun x hx => hab x (List.mem_cons_of_mem _ hx), ?_⟩
      apply happ _ _ hba
      intro x hx
      rw [step_idle_out cfB y.b g c hbtx x hx]
      exact Wire_ack (hab g (List.mem_cons_self _ _)).1.1
  | deliverBA c =>
    simp only [Sys.step]
    cases hl : y.ba with
    | nil => simp only; exact ⟨ha, hab, hba⟩
    | cons g rest =>
      simp only
      rw [hl] at hba
      have := step_frame_wire cfA y.a g c hm ha (hba g (List.mem_cons_self _ _))
      exact ⟨this.1, happ _ _ hab this.2, fun x hx => hba x (List.mem_cons_of_mem _ hx)⟩
  | dropAB i => exact ⟨ha, fun g hg => hab g (List.mem_of_mem_eraseIdx hg), hba⟩
  | dropBA i => exact ⟨ha, hab, fun g hg => hba g (List.mem_of_mem_eraseIdx hg)⟩
  | readB n => exact ⟨ha, hab, hba⟩

theorem SysWire_run (cfA cfB : Config) (hm : cfA.MTU ≤ 255) (es : List SysEvent) :
    ∀ y, Inv y → SysWire y → (∀ e ∈ es, e.bytesOK = true) →
      SysWire (Sys.run cfA cfB y es) := by
  induction es with
  | nil => intro y _ h _; exact h
  | cons e es ih =>
    intro y hinv h hes
    exact ih _ (Inv.step_holds cfA cfB y e hinv)
      (SysWire_step cfA cfB y e hm hinv h (hes e (List.mem_cons_self _ _)))
      (fun x hx => hes x (List.mem_cons_of_mem _ hx))

theorem SysWire_init : SysWire Sys.init := by
  refine ⟨⟨by simp [Sys.init, State.init], by decide, ?_⟩, by simp [Sys.init],
    by simp [Sys.init]⟩
  intro t ht
  cases ht

theorem flushEvents_bytesOK (y : Sys) : ∀ e ∈ flushEvents y, e.bytesOK = true := by
  intro e he
  simp only [flushEvents, List.mem_cons, List.mem_append, List.mem_replicate] at he
  rcases he with rfl | ⟨_, rfl⟩ | ⟨_, rfl⟩ <;> rfl

theorem settle_bytesOK (cfA cfB : Config) :
    ∀ (k : Nat) (y : Sys), ∀ e ∈ settle cfA cfB k y, e.bytesOK = true := by
  intro k
  induction k with
  | zero => intro y e he; simp [settle] at he
  | succ k ih =>
    intro y e he
    simp only [settle, List.mem_append] at he
    rcases he with he | he
    · exact flushEvents_bytesOK y e he
    · exact ih _ e he

/-- C14 as amended, delivery once loss pauses: over a channel that loses or
delays whole frames and keeps their order, with `1 ≤ MTU ≤ 255` at the sender
and bytes written, let `y` be the state after any finite sequence of events.
If from then on, in each of as many rounds as there is work left at `a`, the
retry timer at `a` fires with the transmit pump ready to take a frame, every
frame in flight to `b` is delivered, and every frame in flight to `a` is
delivered with the pump taking the frame that `a` makes on an acknowledgment,
and `b` then reads into a buffer as long as what was written, the state `z`
reached is one in which the reads at `b` have returned exactly the bytes
written at `a`, in order, and nothing is pending, queued or buffered.  The
rounds write nothing; and at every point of the whole run, from the start to
the last read, every frame in flight is one that `Decode` reads back unchanged
from its encoding, whatever follows it in the stream, when the reader satisfies
each request in full: handing the frame to the peer is what sending its
encoding and decoding it amount to. -/
theorem eventual_delivery (cfA cfB : Config) (es : List SysEvent)
    (hm1 : 1 ≤ cfA.MTU) (hm2 : cfA.MTU ≤ 255) (hbytes : ∀ e ∈ es, e.bytesOK = true)
    (y z : Sys) (hy : y = Sys.run cfA cfB Sys.init es)
    (hz : z = Sys.run cfA cfB y
      (settle cfA cfB (remaining y.a) y ++ [SysEvent.readB y.written.length])) :
    z.got = y.written ∧ z.written = y.written ∧ z.b.br = [] ∧ z.a.tx = none ∧
      z.a.bw = [] ∧
    (∀ e ∈ settle cfA cfB (remaining y.a) y ++ [SysEvent.readB y.written.length],
      e.bytesOK = true) ∧
    (∀ (es' : List SysEvent),
      es' <+: es ++ (settle cfA cfB (remaining y.a) y ++ [SysEvent.readB y.written.length]) →
      ∀ (f : Frame), (f ∈ (Sys.run cfA cfB Sys.init es').ab ∨
          f ∈ (Sys.run cfA cfB Sys.init es').ba) →
        ∀ (g : Frame) (t : List Nat),
          (Decode g [(Encode f []).2 ++ t]).1 = none ∧
          (Decode g [(Encode f []).2 ++ t]).2.1 = f ∧
          unread (Decode g [(Encode f []).2 ++ t]).2.2 = t) := by
  have hinv : Inv y := by rw [hy]; exact Inv.run_holds cfA cfB es Sys.init Inv.at_start
  obtain ⟨s1, s2, s3⟩ := settle_done cfA cfB hm1 (remaining y.a) y hinv (Nat.le_refl _)
  obtain ⟨htx, hbw⟩ := remaining_zero s2
  have hw := Inv_idle_written s1 htx
  rw [hbw, List.append_nil, s3] at hw
  have hlen : (Sys.run cfA cfB y (settle cfA cfB (remaining y.a) y)).b.br.length
      ≤ y.written.length := by
    rw [hw, List.length_append]; omega
  have hsched : ∀ e ∈ settle cfA cfB (remaining y.a) y ++ [SysEvent.readB y.written.length],
      e.bytesOK = true := by
    intro e he
    rcases List.mem_append.mp he with he | he
    · exact settle_bytesOK cfA cfB _ y e he
    · simp only [List.mem_singleton] at he
      rw [he]; rfl
  have hwire : ∀ (es' : List SysEvent),
      es' <+: es ++ (settle cfA cfB (remaining y.a) y ++ [SysEvent.readB y.written.length]) →
      ∀ (f : Frame), (f ∈ (Sys.run cfA cfB Sys.init es').ab ∨
          f ∈ (Sys.run cfA cfB Sys.init es').ba) →
        ∀ (g : Frame) (t : List Nat),
          (Decode g [(Encode f []).2 ++ t]).1 = none ∧
          (Decode g [(Encode f []).2 ++ t]).2.1 = f ∧
          unread (Decode g [(Encode f []).2 ++ t]).2.2 = t := by
    intro es' hpre f hf g t
    have hes' : ∀ e ∈ es', e.bytesOK = true := by
      intro e he
      rcases List.mem_append.mp (hpre.subset he) with h | h
      · exact hbytes e h
      · exact hsched e h
    have hsw := SysWire_run cfA cfB hm2 es' Sys.init Inv.at_start SysWire_init hes'
    rcases hf with hf | hf
    · exact Wire_survives f g t (hsw.2.1 f hf)
    · exact Wire_survives f g t (hsw.2.2 f hf)
  rw [hz, Sys_run_append]
  simp only [Sys.run, Sys.step, FrameConn.step, Nat.min_eq_right hlen, List.take_length,
    List.drop_length]
  exact ⟨hw.symm, s3, trivial, htx, hbw, hsched, hwire⟩

/-- Witness of the amended C14: three bytes written with MTU 2, the first
frame lost once. -/
theorem eventual_delivery_witness :
    (Sys.run ⟨2, 0⟩ ⟨2, 0⟩
      (Sys.run ⟨2, 0⟩ ⟨2, 0⟩ Sys.init [SysEvent.writeA [1, 2, 3] true, SysEvent.dropAB 0])
      (settle ⟨2, 0⟩ ⟨2, 0⟩
          (remaining (Sys.run ⟨2, 0⟩ ⟨2, 0⟩ Sys.init
            [SysEvent.writeA [1, 2, 3] true, SysEvent.dropAB 0]).a)
          (Sys.run ⟨2, 0⟩ ⟨2, 0⟩ Sys.init [SysEvent.writeA [1, 2, 3] true, SysEvent.dropAB 0])
        ++ [SysEvent.readB (Sys.run ⟨2, 0⟩ ⟨2, 0⟩ Sys.init
            [SysEvent.writeA [1, 2, 3] true, SysEvent.dropAB 0]).written.length])).got
      = (Sys.run ⟨2, 0⟩ ⟨2, 0⟩ Sys.init
          [SysEvent.writeA [1, 2, 3] true, SysEvent.dropAB 0]).written :=
  (eventual_delivery ⟨2, 0⟩ ⟨2, 0⟩ [SysEvent.writeA [1, 2, 3] true, SysEvent.dropAB 0]
    (by decide) (by decide) (by decide) _ _ rfl rfl).1

/-- The witness run evaluated: the reads at `b` have returned `[1, 2, 3]`. -/
theorem eventual_delivery_example :
    (Sys.run ⟨2, 0⟩ ⟨2, 0⟩
      (Sys.run ⟨2, 0⟩ ⟨2, 0⟩ Sys.init [SysEvent.writeA [1, 2, 3] true, SysEvent.dropAB 0])
      (settle ⟨2, 0⟩ ⟨2, 0⟩ 2
          (Sys.run ⟨2, 0⟩ ⟨2, 0⟩ Sys.init [SysEvent.writeA [1, 2, 3] true, SysEvent.dropAB 0])
        ++ [SysEvent.readB 3])).got = [1, 2, 3] := by
  decide

/-- C14 refuted as stated, over a channel that loses bytes: `a` is asked to
write the nine bytes that are the encoding of the frame `(2, 0, 1, [65])`; its
state machine hands the frame `(1, 0, 9, those bytes)` to the pump, which
encodes it; the channel loses the first four bytes of the encoding; `Decode`
at `b` then finds the embedded frame `(2, 0, 1, [65])` with a valid checksum,
the state machine of `b` accepts it, and the first `Read` at `b` returns the
byte 65, although the first byte written is 235.  The intact retransmission is
accepted after it, so the reads at `b` return 65 followed by the nine bytes;
whatever is read later, the bytes returned never equal the bytes written. -/
theorem embedded_frame_misdelivered :
    step defaultConfig State.init (Event.write [235, 2, 0, 1, 65, 43, 239, 137, 31] true)
      = (⟨[], [], none, some ⟨1, 0, 9, [235, 2, 0, 1, 65, 43, 239, 137, 31]⟩, 2⟩,
         ⟨[⟨1, 0, 9, [235, 2, 0, 1, 65, 43, 239, 137, 31]⟩], []⟩) ∧
    (Encode ⟨1, 0, 9, [235, 2, 0, 1, 65, 43, 239, 137, 31]⟩ []).2
      = [235, 1, 0, 9, 235, 2, 0, 1, 65, 43, 239, 137, 31, 199, 217, 74, 143] ∧
    Decode ⟨0, 0, 0, []⟩
        [[235, 1, 0, 9, 235, 2, 0, 1, 65, 43, 239, 137, 31, 199, 217, 74, 143].drop 4]
      = (none, ⟨2, 0, 1, [65]⟩, [[199, 217, 74, 143]]) ∧
    (run defaultConfig State.init [Event.frame ⟨2, 0, 1, [65]⟩ true, Event.read 1]).2.bytes
      = [65] ∧
    (run defaultConfig State.init
      [Event.frame ⟨2, 0, 1, [65]⟩ true, Event.read 1,
       Event.frame ⟨1, 0, 9, [235, 2, 0, 1, 65, 43, 239, 137, 31]⟩ true,
       Event.read 100]).2.bytes = [65, 235, 2, 0, 1, 65, 43, 239, 137, 31] ∧
    ∀ more : List Nat, [65] ++ more ≠ [235, 2, 0, 1, 65, 43, 239, 137, 31] := by
  refine ⟨by decide, by set_option maxRecDepth 100000 in decide,
    by set_option maxRecDepth 100000 in decide, by decide, by decide, ?_⟩
  intro more h
  simp at h

/-- Why the amended C14 bounds the MTU: with MTU 300 and 300 bytes written, the
frame that `a` hands to the pump has size 44 and 300 bytes of data; `Decode`,
reading its encoding in full reads, takes 44 bytes as the payload, finds the
next four bytes of data where the checksum should be, and fails with
`ErrChecksum`, leaving 256 bytes of the encoding unread. -/
theorem oversize_frame_in_flight :
    (Sys.run ⟨300, 0⟩ ⟨300, 0⟩ Sys.init [SysEvent.writeA (List.replicate 300 7) true]).ab
      = [⟨1, 0, 44, List.replicate 300 7⟩] ∧
    (Decode ⟨0, 0, 0, []⟩ [(Encode ⟨1, 0, 44, List.replicate 300 7⟩ []).2]).1
      = some Err.ErrChecksum ∧
    (Decode ⟨0, 0, 0, []⟩ [(Encode ⟨1, 0, 44, List.replicate 300 7⟩ []).2]).2.1
      = ⟨1, 0, 44, List.replicate 44 7⟩ ∧
    (unread (Decode ⟨0, 0, 0, []⟩ [(Encode ⟨1, 0, 44, List.replicate 300 7⟩ []).2]).2.2).length
      = 256 := by
  refine ⟨by set_option maxRecDepth 100000 in decide,
    by set_option maxRecDepth 1000000 in decide⟩

/-- Why the amended C14 asks that the pump be ready in each round: when the
pump takes no frame, on the write and on every retry tick, nothing is in flight
and the reads at `b` return nothing, however often the timer fires. -/
theorem delivery_needs_pump (k : Nat) :
    (Sys.run ⟨2, 0⟩ ⟨2, 0⟩ Sys.init
      (SysEvent.writeA [1, 2, 3] false ::
        (List.replicate k (SysEvent.retryA false false) ++
          [SysEvent.deliverAB true, SysEvent.deliverBA true, SysEvent.readB 3]))).got = [] := by
  have h : ∀ (k : Nat) (y : Sys), y.a.tx.isSome = true →
      Sys.run ⟨2, 0⟩ ⟨2, 0⟩ y (List.replicate k (SysEvent.retryA false false)) = y := by
    intro k
    induction k with
    | zero => intro y _; rfl
    | succ k ih =>
      intro y hy
      have hs : Sys.step ⟨2, 0⟩ ⟨2, 0⟩ y (SysEvent.retryA false false) = y := by
        have htx : y.a.tx ≠ none := by
          intro h0; rw [h0] at hy; cases hy
        simp only [Sys.step, FrameConn.step, next_pending _ y.a false htx]
        cases ht : y.a.tx with
        | none => exact absurd ht htx
        | some t => simp
      rw [List.replicate_succ, Sys_run_cons, hs]
      exact ih y hy
  rw [Sys_run_cons, Sys_run_append, h k _ (by decide)]
  decide

end FrameConn
